import Mathlib

/-!
Verification of the FFT engine in `fft.hpp` (repository AE9RB/fftbench).

The engine works on buffers of `std::complex<T>`; we model a buffer as a
function `ℕ → ℂ` (the C++ code addresses buffers through pointers, and every
routine touches only a known finite window of offsets).  Floating-point
numbers are modelled by real numbers, i.e. we verify the ideal-arithmetic
behaviour of the algorithms.

Embedded routines (all from `fft.hpp`):
 * `FFT.mul`              — `FFT::Butterfly::mul` (fast complex multiply)
 * `FFT.direction`        — `FFT::Butterfly::direction` (90° rotation, sign `D`)
 * `FFT.twiddle`          — `FFT::twiddles` (twiddle factor tables `t1,t2,t3`)
 * `FFT.mix`              — `FFT::Butterfly<T,D,N>::mix` with its `N=2` / `N=1`
                            template specialisations
 * `FFT.patternSizeImpl`  — `FFT::Transform::pattern_size_impl`
 * `FFT.ispow4Impl`       — `FFT::Transform::ispow4_impl`
 * `FFT.bitpattern`       — `FFT::bitpattern`
 * `FFT.reindexIP`        — in-place `FFT::Transform::reindex(data)`, as the
                            fold of the exact sequence of swaps it performs
 * `FFT.reindexOOP`       — out-of-place `FFT::Transform::reindex(in, out)`,
                            as the fold of the exact sequence of assignments
 * `FFT.dft`, `FFT.idft`  — `FFT::Transform::dft/idft`, both arities
-/

namespace FFT

/-- Fast complex multiplication from `FFT::Butterfly::mul` in `fft.hpp`:
returns `(z.real()*w.real() - z.imag()*w.imag(), z.imag()*w.real() + z.real()*w.imag())`,
bypassing the standard library's NaN handling. -/
def mul (z w : ℂ) : ℂ :=
  ⟨z.re * w.re - z.im * w.im, z.im * w.re + z.re * w.im⟩

/-- Simplified multiplication by the direction unit, `FFT::Butterfly::direction`:
`if (D>0) return (-z.imag(), z.real()); else return (z.imag(), -z.real());`. -/
def direction (d : ℤ) (z : ℂ) : ℂ :=
  if d > 0 then ⟨-z.im, z.re⟩ else ⟨z.im, -z.re⟩

/-- Twiddle factor from `FFT::twiddles`: with `theta = M_PI*2*d/n` and
`phi = theta*a*i`, entry `i` of table `t_a` is `(cos phi, sin phi)`.
`Twiddle<T,D,N>::t1/t2/t3` are `twiddle D N 1/2/3`. -/
noncomputable def twiddle (d : ℤ) (n : ℕ) (a : ℕ) (i : ℕ) : ℂ :=
  ⟨Real.cos (Real.pi * 2 * d / n * a * i), Real.sin (Real.pi * 2 * d / n * a * i)⟩

/-- The recursive radix-4 / radix-2 butterfly mixer `FFT::Butterfly<T,D,N>::mix`.
`mix d n f` is the buffer contents after `Butterfly<T,d,n>::mix(data)` ran on
the block of offsets `[0,n)` of the buffer `f`; offsets `≥ n` are untouched.
The three cases are the general template (radix-4 recursion into the four
quarter blocks followed by the combination loop, with the `i0 = 0` iteration
special-cased because index-0 twiddles are `1+0i`), the `N = 2` radix-2
specialisation, and the `N = 1` do-nothing specialisation. -/
noncomputable def mix (d : ℤ) (n : ℕ) (f : ℕ → ℂ) : ℕ → ℂ :=
  if _h1 : n ≤ 1 then f
  else if _h2 : n = 2 then
    fun k => if k = 0 then f 0 + f 1 else if k = 1 then f 0 - f 1 else f k
  else
    let q := n / 4
    let g : ℕ → ℂ := fun t =>
      if t < q then mix d q f t
      else if t < 2 * q then mix d q (fun s => f (q + s)) (t - q)
      else if t < 3 * q then mix d q (fun s => f (2 * q + s)) (t - 2 * q)
      else if t < 4 * q then mix d q (fun s => f (3 * q + s)) (t - 3 * q)
      else f t
    fun k =>
      if k < 4 * q then
        let i0 := k % q
        let a0 := g i0
        let a2 := if i0 = 0 then g q else mul (g (q + i0)) (twiddle d n 2 i0)
        let a1 := if i0 = 0 then g (2 * q) else mul (g (2 * q + i0)) (twiddle d n 1 i0)
        let a3 := if i0 = 0 then g (3 * q) else mul (g (3 * q + i0)) (twiddle d n 3 i0)
        let b0 := a1 + a3
        let b1 := direction d (a1 - a3)
        if k / q = 0 then a0 + a2 + b0
        else if k / q = 1 then a0 - a2 + b1
        else if k / q = 2 then a0 + a2 - b0
        else a0 - a2 - b1
      else f k
termination_by n
decreasing_by all_goals omega

/-- Reversal of the low `b` bits of a natural number (specification helper used
to describe the permutation realised by `FFT::Transform::reindex`). -/
def bitrev : ℕ → ℕ → ℕ
  | 0, _ => 0
  | b + 1, n => n % 2 * 2 ^ b + bitrev b (n / 2)

/-- `FFT::Transform::pattern_size_impl(n, m)`:
`((m << 2) < n) ? pattern_size_impl(n >> 1, m << 1) : m`. -/
def patternSizeImpl (n m : ℕ) : ℕ :=
  if 4 * m < n then patternSizeImpl (n / 2) (2 * m) else m
termination_by n
decreasing_by omega

/-- `FFT::Transform::ispow4_impl(n, m)`:
`((m << 2) < n) ? ispow4_impl(n >> 1, m << 1) : (m << 2) == n`. -/
def ispow4Impl (n m : ℕ) : Bool :=
  if 4 * m < n then ispow4Impl (n / 2) (2 * m) else 4 * m == n
termination_by n
decreasing_by omega

/-- Loop of `FFT::bitpattern`: while `(m << 2) < n`, halve `n`, append
`l[j] + n` for each `j < m` (the list has exactly `m` entries at that point),
and double `m`. -/
def bitpatternLoop (n m : ℕ) (l : List ℕ) : List ℕ :=
  if 4 * m < n then
    bitpatternLoop (n / 2) (2 * m) (l ++ (l.take m).map (fun e => e + n / 2))
  else l
termination_by n
decreasing_by omega

/-- `FFT::bitpattern(n, ispow4)`: starts from `n = (n*n) << 1`, doubled once
more when `ispow4`, and from the singleton list `[0]` with `m = 1`. -/
def bitpattern (n : ℕ) (isp4 : Bool) : List ℕ :=
  bitpatternLoop (if isp4 then 4 * (n * n) else 2 * (n * n)) 1 [0]

/-- `FFT::Transform<T,N>::pattern_size`. -/
def patternSize (N : ℕ) : ℕ :=
  patternSizeImpl N 1

/-- `FFT::Transform<T,N>::ispow4`. -/
def ispow4 (N : ℕ) : Bool :=
  ispow4Impl N 1

/-- `FFT::Transform<T,N>`'s bit-reversal table `BitReverse<pattern_size, ispow4>::pattern`. -/
def pattern (N : ℕ) : List ℕ :=
  bitpattern (patternSize N) (ispow4 N)

/-- Functional swap of the contents of two buffer positions (`std::swap`). -/
def swapF (f : ℕ → ℂ) (a b : ℕ) : ℕ → ℂ :=
  fun k => if k = a then f b else if k = b then f a else f k

/-- Apply a list of swaps from left to right. -/
def foldSwaps (f : ℕ → ℂ) (L : List (ℕ × ℕ)) : ℕ → ℂ :=
  L.foldl (fun g p => swapF g p.1 p.2) f

/-- The exact sequence of swaps performed by the in-place
`FFT::Transform::reindex(data)` in the `ispow4` branch: for `k < m`, for
`j < k`, the four swaps at `(j + pattern[k], k + pattern[j])` shifted by
`(0,0), (m,2m), (2m,m), (3m,3m)`, then the diagonal swap at
`(k + m + pattern[k], k + 2m + pattern[k])`. -/
def pairs4 (p : List ℕ) (m : ℕ) : List (ℕ × ℕ) :=
  (List.range m).flatMap (fun k =>
    ((List.range k).flatMap (fun j =>
      [(j + p.getD k 0, k + p.getD j 0),
       (j + p.getD k 0 + m, k + p.getD j 0 + 2 * m),
       (j + p.getD k 0 + 2 * m, k + p.getD j 0 + m),
       (j + p.getD k 0 + 3 * m, k + p.getD j 0 + 3 * m)]))
    ++ [(k + m + p.getD k 0, k + 2 * m + p.getD k 0)])

/-- The exact sequence of swaps performed by the in-place
`FFT::Transform::reindex(data)` in the non-`ispow4` branch: for `1 ≤ k < m`,
for `j < k`, the swaps at `(j + pattern[k], k + pattern[j])` shifted by
`(0,0)` and `(m,m)`. -/
def pairs2 (p : List ℕ) (m : ℕ) : List (ℕ × ℕ) :=
  (List.range' 1 (m - 1)).flatMap (fun k =>
    (List.range k).flatMap (fun j =>
      [(j + p.getD k 0, k + p.getD j 0),
       (j + p.getD k 0 + m, k + p.getD j 0 + m)]))

/-- In-place `FFT::Transform::reindex(data)`, as the fold of its swaps. -/
def reindexIP (N : ℕ) (x : ℕ → ℂ) : ℕ → ℂ :=
  let m := (pattern N).length
  if ispow4 N then foldSwaps x (pairs4 (pattern N) m)
  else foldSwaps x (pairs2 (pattern N) m)

/-- In-place `FFT::Transform::dft(data)`: reindex, then the forward
(`D = -1`) butterfly. -/
noncomputable def dft (N : ℕ) (x : ℕ → ℂ) : ℕ → ℂ :=
  mix (-1) N (reindexIP N x)

/-- In-place `FFT::Transform::idft(data)`: reindex, then the inverse
(`D = 1`) butterfly. -/
noncomputable def idft (N : ℕ) (x : ℕ → ℂ) : ℕ → ℂ :=
  mix 1 N (reindexIP N x)

/-- The exact sequence of assignments `out[dst] = in[src]`, as `(dst, src)`
pairs, performed by the out-of-place `FFT::Transform::reindex(in, out)` in the
`ispow4` branch. -/
def asgs4 (p : List ℕ) (m : ℕ) : List (ℕ × ℕ) :=
  (List.range m).flatMap (fun k =>
    ((List.range k).flatMap (fun j =>
      [(j + p.getD k 0, k + p.getD j 0),
       (k + p.getD j 0, j + p.getD k 0),
       (j + p.getD k 0 + m, k + p.getD j 0 + 2 * m),
       (k + p.getD j 0 + 2 * m, j + p.getD k 0 + m),
       (j + p.getD k 0 + 2 * m, k + p.getD j 0 + m),
       (k + p.getD j 0 + m, j + p.getD k 0 + 2 * m),
       (j + p.getD k 0 + 3 * m, k + p.getD j 0 + 3 * m),
       (k + p.getD j 0 + 3 * m, j + p.getD k 0 + 3 * m)]))
    ++ [(k + p.getD k 0, k + p.getD k 0),
        (k + m + p.getD k 0, k + 2 * m + p.getD k 0),
        (k + 2 * m + p.getD k 0, k + m + p.getD k 0),
        (k + 3 * m + p.getD k 0, k + 3 * m + p.getD k 0)])

/-- The exact sequence of assignments `out[dst] = in[src]` performed by the
out-of-place `FFT::Transform::reindex(in, out)` in the non-`ispow4` branch:
`out[0] = in[0]; out[m] = in[m];` then the doubly indexed loop. -/
def asgs2 (p : List ℕ) (m : ℕ) : List (ℕ × ℕ) :=
  [(0, 0), (m, m)] ++
  (List.range' 1 (m - 1)).flatMap (fun k =>
    ((List.range k).flatMap (fun j =>
      [(j + p.getD k 0, k + p.getD j 0),
       (k + p.getD j 0, j + p.getD k 0),
       (j + p.getD k 0 + m, k + p.getD j 0 + m),
       (k + p.getD j 0 + m, j + p.getD k 0 + m)]))
    ++ [(k + p.getD k 0, k + p.getD k 0),
        (k + p.getD k 0 + m, k + p.getD k 0 + m)])

/-- The two caller-owned buffers of an out-of-place transform call. -/
structure Buffers where
  inp : ℕ → ℂ
  out : ℕ → ℂ

/-- One out-of-place assignment `out[dst] = in[src]`; only `out` is written. -/
def oopStep (st : Buffers) (a : ℕ × ℕ) : Buffers :=
  { st with out := fun k => if k = a.1 then st.inp a.2 else st.out k }

/-- Out-of-place `FFT::Transform::reindex(in, out)`. -/
def reindexOOP (N : ℕ) (st : Buffers) : Buffers :=
  let m := (pattern N).length
  if ispow4 N then (asgs4 (pattern N) m).foldl oopStep st
  else (asgs2 (pattern N) m).foldl oopStep st

/-- Out-of-place `FFT::Transform::dft(in, out)`: reindex by copying, then the
forward butterfly on the output buffer. -/
noncomputable def dftOOP (N : ℕ) (st : Buffers) : Buffers :=
  let st1 := reindexOOP N st
  { st1 with out := mix (-1) N st1.out }

/-- Out-of-place `FFT::Transform::idft(in, out)`: reindex by copying, then the
inverse butterfly on the output buffer. -/
noncomputable def idftOOP (N : ℕ) (st : Buffers) : Buffers :=
  let st1 := reindexOOP N st
  { st1 with out := mix 1 N st1.out }

end FFT

namespace FFT

/-! ### Basic facts about `mul`, `direction`, `twiddle` -/

theorem mul_eq_mul (z w : ℂ) : mul z w = z * w := by
  apply Complex.ext <;> simp [mul, Complex.mul_re, Complex.mul_im] <;> ring

/-- The exponential kernel `e^(2 π d t / n · i)` used to specify the DFT. -/
noncomputable def dker (d : ℤ) (n : ℕ) (t : ℤ) : ℂ :=
  Complex.exp (2 * (Real.pi : ℂ) * (d : ℂ) * (t : ℂ) / (n : ℂ) * Complex.I)

theorem exp_real_mul_I (x : ℝ) : Complex.exp ((x : ℂ) * Complex.I) = ⟨Real.cos x, Real.sin x⟩ := by
  apply Complex.ext
  · exact Complex.exp_ofReal_mul_I_re x
  · exact Complex.exp_ofReal_mul_I_im x

theorem twiddle_eq_dker (d : ℤ) (n a i : ℕ) :
    twiddle d n a i = dker d n (a * i) := by
  rw [twiddle, dker, ← exp_real_mul_I]
  congr 1
  push_cast
  ring

theorem dker_zero (d : ℤ) (n : ℕ) : dker d n 0 = 1 := by
  simp [dker]

theorem twiddle_zero (d : ℤ) (n a : ℕ) : twiddle d n a 0 = 1 := by
  rw [twiddle_eq_dker]
  simpa using dker_zero d n

theorem dker_add (d : ℤ) (n : ℕ) (s t : ℤ) :
    dker d n (s + t) = dker d n s * dker d n t := by
  rw [dker, dker, dker, ← Complex.exp_add]
  congr 1
  push_cast
  ring

theorem dker_natCast_mul (d : ℤ) (n : ℕ) (k : ℕ) (t : ℤ) :
    dker d n (k * t) = dker d n t ^ k := by
  rw [dker, dker, ← Complex.exp_nat_mul]
  congr 1
  push_cast
  ring

theorem dker_self_mul (d : ℤ) (n : ℕ) (hn : n ≠ 0) (t : ℤ) :
    dker d n ((n : ℤ) * t) = 1 := by
  have hn' : (n : ℂ) ≠ 0 := by exact_mod_cast hn
  rw [dker, ← Complex.exp_int_mul_two_pi_mul_I (d * t)]
  congr 1
  push_cast
  field_simp
  ring

theorem dker_period (d : ℤ) (n : ℕ) (hn : n ≠ 0) (s t : ℤ) :
    dker d n (s + (n : ℤ) * t) = dker d n s := by
  rw [dker_add, dker_self_mul d n hn, mul_one]

theorem dker_quarter (d : ℤ) (q : ℕ) (hq : q ≠ 0) (t : ℤ) :
    dker d (4 * q) ((q : ℤ) * t) = dker d 4 t := by
  have hq' : (q : ℂ) ≠ 0 := by exact_mod_cast hq
  rw [dker, dker]
  congr 1
  push_cast
  field_simp
  ring

theorem dker_one_four : dker 1 4 1 = Complex.I := by
  have h : Complex.exp (((Real.pi / 2 : ℝ) : ℂ) * Complex.I) = Complex.I := by
    rw [exp_real_mul_I, Real.cos_pi_div_two, Real.sin_pi_div_two]
    apply Complex.ext <;> simp
  rw [dker]
  refine Eq.trans ?_ h
  congr 1
  push_cast
  ring

theorem dker_neg_one_four : dker (-1) 4 1 = -Complex.I := by
  have h : Complex.exp (((-(Real.pi / 2) : ℝ) : ℂ) * Complex.I) = -Complex.I := by
    rw [exp_real_mul_I, Real.cos_neg, Real.sin_neg, Real.cos_pi_div_two, Real.sin_pi_div_two]
    apply Complex.ext <;> simp
  rw [dker]
  refine Eq.trans ?_ h
  congr 1
  push_cast
  ring

theorem direction_eq (d : ℤ) (hd : d = 1 ∨ d = -1) (z : ℂ) :
    direction d z = dker d 4 1 * z := by
  rcases hd with rfl | rfl
  · rw [dker_one_four, direction, if_pos (by norm_num)]
    apply Complex.ext <;> simp
  · rw [dker_neg_one_four, direction, if_neg (by norm_num)]
    apply Complex.ext <;> simp

theorem dker_four_sq (d : ℤ) (hd : d = 1 ∨ d = -1) :
    dker d 4 1 * dker d 4 1 = -1 := by
  rcases hd with rfl | rfl
  · rw [dker_one_four]; simp [Complex.I_mul_I]
  · rw [dker_neg_one_four]; simp [Complex.I_mul_I]

/-! ### Bit reversal -/

theorem bitrev_lt (b n : ℕ) : bitrev b n < 2 ^ b := by
  induction b generalizing n with
  | zero => simp [bitrev]
  | succ b ih =>
    have h2 : n % 2 ≤ 1 := by omega
    have h3 : n % 2 * 2 ^ b ≤ 1 * 2 ^ b := Nat.mul_le_mul_right _ h2
    have h4 := ih (n / 2)
    simp only [bitrev, pow_succ]
    omega

theorem bitrev_add_pow (a b x y : ℕ) (hx : x < 2 ^ a) (hy : y < 2 ^ b) :
    bitrev (a + b) (x + 2 ^ a * y) = bitrev b y + 2 ^ b * bitrev a x := by
  induction a generalizing x with
  | zero =>
    have hx0 : x = 0 := by omega
    subst hx0
    simp [bitrev]
  | succ a ih =>
    have hstep : a + 1 + b = (a + b) + 1 := by omega
    rw [hstep]
    have hz : x + 2 ^ (a + 1) * y = x + 2 * (2 ^ a * y) := by ring
    rw [hz]
    have hmod : (x + 2 * (2 ^ a * y)) % 2 = x % 2 := Nat.add_mul_mod_self_left x 2 _
    have hdiv : (x + 2 * (2 ^ a * y)) / 2 = x / 2 + 2 ^ a * y :=
      Nat.add_mul_div_left x _ (by norm_num)
    simp only [bitrev, hmod, hdiv]
    have hx2 : x / 2 < 2 ^ a := by
      rw [pow_succ] at hx
      omega
    rw [ih _ hx2]
    have hpow : 2 ^ (a + b) = 2 ^ a * 2 ^ b := pow_add 2 a b
    simp only [bitrev, hpow]
    ring

theorem bitrev_bitrev (b n : ℕ) (hn : n < 2 ^ b) : bitrev b (bitrev b n) = n := by
  induction b generalizing n with
  | zero =>
    have : n = 0 := by omega
    simp [this, bitrev]
  | succ b ih =>
    have h1 : bitrev (b + 1) n = bitrev b (n / 2) + 2 ^ b * (n % 2) := by
      simp only [bitrev]
      ring
    rw [h1, bitrev_add_pow b 1 _ _ (bitrev_lt b (n / 2)) (by omega)]
    have hn2 : n / 2 < 2 ^ b := by
      rw [pow_succ] at hn
      omega
    rw [ih _ hn2]
    have : bitrev 1 (n % 2) = n % 2 := by
      simp only [bitrev]
      omega
    rw [this]
    omega

theorem bitrev_inj (b : ℕ) {x y : ℕ} (hx : x < 2 ^ b) (hy : y < 2 ^ b)
    (h : bitrev b x = bitrev b y) : x = y := by
  have := bitrev_bitrev b x hx
  rw [h, bitrev_bitrev b y hy] at this
  omega

end FFT

namespace FFT

/-! ### Evaluation lemmas for `mix` -/

theorem digit_mod (q i r : ℕ) (hq : 0 < q) (hi : i < q) : (r * q + i) % q = i := by
  rw [Nat.add_comm, Nat.add_mul_mod_self_right, Nat.mod_eq_of_lt hi]

theorem digit_div (q i r : ℕ) (hq : 0 < q) (hi : i < q) : (r * q + i) / q = r := by
  rw [Nat.add_comm, Nat.add_mul_div_right _ _ hq, Nat.div_eq_of_lt hi, Nat.zero_add]

theorem mix_le_one (d : ℤ) (n : ℕ) (f : ℕ → ℂ) (h : n ≤ 1) : mix d n f = f := by
  rw [mix, dif_pos h]

theorem mix_two (d : ℤ) (f : ℕ → ℂ) (k : ℕ) :
    mix d 2 f k = if k = 0 then f 0 + f 1 else if k = 1 then f 0 - f 1 else f k := by
  rw [mix]
  norm_num

theorem mix_four_eval (d : ℤ) (q : ℕ) (hq : 0 < q) (f : ℕ → ℂ) (r i : ℕ)
    (hr : r < 4) (hi : i < q) :
    mix d (4 * q) f (r * q + i) =
      (fun a0 a1 a2 a3 =>
        if r = 0 then a0 + a2 + (a1 + a3)
        else if r = 1 then a0 - a2 + direction d (a1 - a3)
        else if r = 2 then a0 + a2 - (a1 + a3)
        else a0 - a2 - direction d (a1 - a3))
      (mix d q f i)
      (mul (mix d q (fun s => f (2 * q + s)) i) (twiddle d (4 * q) 1 i))
      (mul (mix d q (fun s => f (q + s)) i) (twiddle d (4 * q) 2 i))
      (mul (mix d q (fun s => f (3 * q + s)) i) (twiddle d (4 * q) 3 i)) := by
  have h1 : ¬(4 * q ≤ 1) := by omega
  have h2 : ¬(4 * q = 2) := by omega
  rw [mix, dif_neg h1, dif_neg h2]
  simp only [Nat.mul_div_cancel_left q (by norm_num : 0 < 4)]
  simp only [digit_mod q i r hq hi, digit_div q i r hq hi]
  have hk4 : r * q + i < 4 * q := by nlinarith
  rw [if_pos hk4]
  have hg0 : i < q := hi
  have hgq : ¬(q + i < q) := by omega
  have hgq2 : q + i < 2 * q := by omega
  have hg2q : ¬(2 * q + i < q) := by omega
  have hg2q' : ¬(2 * q + i < 2 * q) := by omega
  have hg2q2 : 2 * q + i < 3 * q := by omega
  have hg3q : ¬(3 * q + i < q) := by omega
  have hg3q' : ¬(3 * q + i < 2 * q) := by omega
  have hg3q'' : ¬(3 * q + i < 3 * q) := by omega
  have hg3q2 : 3 * q + i < 4 * q := by omega
  simp only [if_pos hg0, if_neg hgq, if_pos hgq2, if_neg hg2q, if_neg hg2q', if_pos hg2q2,
    if_neg hg3q, if_neg hg3q', if_neg hg3q'', if_pos hg3q2,
    Nat.add_sub_cancel_left]
  by_cases hi0 : i = 0
  · subst hi0
    simp only [if_pos rfl]
    have hmulq : ¬(q < q) := by omega
    have hq2 : q < 2 * q := by omega
    simp only [if_neg hmulq, if_pos hq2, Nat.sub_self]
    have htz1 := twiddle_zero d (4 * q) 1
    have htz2 := twiddle_zero d (4 * q) 2
    have htz3 := twiddle_zero d (4 * q) 3
    simp only [htz1, htz2, htz3, mul_eq_mul, mul_one]
    have h2q : ¬(2 * q < q) := by omega
    have h2q' : ¬(2 * q < 2 * q) := by omega
    have h2q2 : 2 * q < 3 * q := by omega
    have h3q : ¬(3 * q < q) := by omega
    have h3q' : ¬(3 * q < 2 * q) := by omega
    have h3q'' : ¬(3 * q < 3 * q) := by omega
    have h3q2 : 3 * q < 4 * q := by omega
    simp only [if_neg h2q, if_neg h2q', if_pos h2q2, if_neg h3q, if_neg h3q', if_neg h3q'',
      if_pos h3q2]
    simp
  · simp only [if_neg hi0]

theorem mix_untouched (d : ℤ) (n : ℕ) (f : ℕ → ℂ) (k : ℕ) (hk : n ≤ k) :
    mix d n f k = f k := by
  by_cases h1 : n ≤ 1
  · rw [mix_le_one d n f h1]
  · by_cases h2 : n = 2
    · subst h2
      rw [mix_two]
      have : ¬(k = 0) := by omega
      have : ¬(k = 1) := by omega
      simp_all
    · rw [mix, dif_neg h1, dif_neg h2]
      have : ¬(k < 4 * (n / 4)) := by omega
      simp only [if_neg this]

end FFT

namespace FFT

theorem dker_four_mul (d : ℤ) (n : ℕ) (hn : n ≠ 0) (t : ℤ) :
    dker d (4 * n) (4 * t) = dker d n t := by
  have hn' : (n : ℂ) ≠ 0 := by exact_mod_cast hn
  rw [dker, dker]
  congr 1
  push_cast
  field_simp
  ring

theorem dker_two (d : ℤ) (hd : d = 1 ∨ d = -1) : dker d 2 1 = -1 := by
  rcases hd with rfl | rfl
  · rw [dker, ← Complex.exp_pi_mul_I]
    congr 1
    push_cast
    field_simp
  · have h : Complex.exp (-((Real.pi : ℂ) * Complex.I)) = -1 := by
      rw [Complex.exp_neg, Complex.exp_pi_mul_I]
      norm_num
    rw [dker]
    refine Eq.trans ?_ h
    congr 1
    push_cast
    field_simp
    ring

theorem twiddle_harm_zero (d : ℤ) (n i : ℕ) : twiddle d n 0 i = 1 := by
  rw [twiddle_eq_dker]
  have h0 : ((0 : ℕ) : ℤ) * (i : ℤ) = 0 := by simp
  rw [h0, dker_zero]

theorem sum_range_four_mul (g : ℕ → ℂ) (q : ℕ) :
    ∑ n ∈ Finset.range (4 * q), g n
      = ∑ m ∈ Finset.range q, (g (4 * m) + g (4 * m + 1) + g (4 * m + 2) + g (4 * m + 3)) := by
  induction q with
  | zero => simp
  | succ t ih =>
    rw [show 4 * (t + 1) = (4 * t + 3) + 1 from by ring, Finset.sum_range_succ,
      show 4 * t + 3 = (4 * t + 2) + 1 from by ring, Finset.sum_range_succ,
      show 4 * t + 2 = (4 * t + 1) + 1 from by ring, Finset.sum_range_succ,
      show 4 * t + 1 = (4 * t) + 1 from by ring, Finset.sum_range_succ,
      Finset.sum_range_succ _ t, ih,
      show 4 * t + 1 + 1 + 1 = 4 * t + 3 from by ring,
      show 4 * t + 1 + 1 = 4 * t + 2 from by ring]
    ring

theorem bitrev_four (b m r : ℕ) (hm : m < 2 ^ b) (hr : r < 4) :
    bitrev (b + 2) (4 * m + r) = bitrev 2 r * 2 ^ b + bitrev b m := by
  have hr' : r < 2 ^ 2 := by omega
  have h := bitrev_add_pow 2 b r m hr' hm
  rw [show 4 * m + r = r + 2 ^ 2 * m from by ring, show b + 2 = 2 + b from by ring, h]
  ring

theorem dker_split (d : ℤ) (q : ℕ) (hq : q ≠ 0) (r i m r' : ℕ) :
    dker d (4 * q) (((r * q + i : ℕ) : ℤ) * ((4 * m + r' : ℕ) : ℤ))
      = dker d q ((i : ℤ) * (m : ℤ))
        * (twiddle d (4 * q) r' i * (dker d 4 1) ^ (r * r')) := by
  have harg : ((r * q + i : ℕ) : ℤ) * ((4 * m + r' : ℕ) : ℤ)
      = (4 * ((i : ℤ) * (m : ℤ) + ((q : ℕ) : ℤ) * ((r * m : ℕ) : ℤ)))
        + ((r' : ℤ) * (i : ℤ) + ((q : ℕ) : ℤ) * ((r * r' : ℕ) : ℤ)) := by
    push_cast
    ring
  rw [harg, dker_add, dker_four_mul d q hq, dker_period d q hq, dker_add, dker_quarter d q hq]
  congr 1
  congr 1
  · exact (twiddle_eq_dker d (4 * q) r' i).symm
  · have h := dker_natCast_mul d 4 (r * r') 1
    rw [mul_one] at h
    exact h

end FFT


namespace FFT

theorem mix_correct (d : ℤ) (hd : d = 1 ∨ d = -1) :
    ∀ (b : ℕ) (f : ℕ → ℂ) (k : ℕ), k < 2 ^ b →
      mix d (2 ^ b) f k
        = ∑ n ∈ Finset.range (2 ^ b), f (bitrev b n) * dker d (2 ^ b) ((k : ℤ) * (n : ℤ)) := by
  intro b
  induction b using Nat.strong_induction_on with
  | _ b ih =>
    obtain _ | _ | c := b
    · intro f k hk
      have hk0 : k = 0 := by omega
      subst hk0
      rw [mix_le_one d _ f (by norm_num)]
      simp [bitrev, dker_zero]
    · intro f k hk
      simp only [Nat.zero_add] at hk ⊢
      have h21 : (2 : ℕ) ^ 1 = 2 := by norm_num
      rw [h21] at hk ⊢
      rw [mix_two]
      have hb0 : bitrev 1 0 = 0 := by decide
      have hb1 : bitrev 1 1 = 1 := by decide
      rcases (by omega : k = 0 ∨ k = 1) with rfl | rfl
      · simp [Finset.sum_range_succ, hb0, hb1, dker_zero]
      · have h2 : dker d 2 1 = -1 := dker_two d hd
        simp [Finset.sum_range_succ, hb0, hb1, dker_zero, h2]
        ring
    · intro f k hk
      have hq0 : 0 < 2 ^ c := Nat.pos_pow_of_pos c (by norm_num)
      have hqne : (2 : ℕ) ^ c ≠ 0 := by omega
      have hN : (2 : ℕ) ^ (c + 2) = 4 * 2 ^ c := by
        rw [pow_succ, pow_succ]
        ring
      rw [hN] at hk ⊢
      obtain ⟨r, i, hr, hi, rfl⟩ : ∃ r i, r < 4 ∧ i < 2 ^ c ∧ k = r * 2 ^ c + i := by
        refine ⟨k / 2 ^ c, k % 2 ^ c, ?_, Nat.mod_lt _ hq0, ?_⟩
        · exact (Nat.div_lt_iff_lt_mul hq0).mpr (by omega)
        · have h := Nat.div_add_mod k (2 ^ c)
          rw [Nat.mul_comm] at h
          exact h.symm
      rw [mix_four_eval d (2 ^ c) hq0 f r i hr hi]
      simp only []
      have e0 := ih c (by omega) f i hi
      have e1 := ih c (by omega) (fun s => f (2 ^ c + s)) i hi
      have e2 := ih c (by omega) (fun s => f (2 * 2 ^ c + s)) i hi
      have e3 := ih c (by omega) (fun s => f (3 * 2 ^ c + s)) i hi
      rw [e0, e1, e2, e3, mul_eq_mul, mul_eq_mul, mul_eq_mul, direction_eq d hd]
      rw [sum_range_four_mul
        (fun n => f (bitrev (c + 2) n) * dker d (4 * 2 ^ c) (((r * 2 ^ c + i : ℕ) : ℤ) * (n : ℤ)))
        (2 ^ c)]
      simp only []
      have hterm : ∀ m ∈ Finset.range (2 ^ c),
          f (bitrev (c + 2) (4 * m)) * dker d (4 * 2 ^ c) (((r * 2 ^ c + i : ℕ) : ℤ) * ((4 * m : ℕ) : ℤ))
          + f (bitrev (c + 2) (4 * m + 1)) * dker d (4 * 2 ^ c) (((r * 2 ^ c + i : ℕ) : ℤ) * ((4 * m + 1 : ℕ) : ℤ))
          + f (bitrev (c + 2) (4 * m + 2)) * dker d (4 * 2 ^ c) (((r * 2 ^ c + i : ℕ) : ℤ) * ((4 * m + 2 : ℕ) : ℤ))
          + f (bitrev (c + 2) (4 * m + 3)) * dker d (4 * 2 ^ c) (((r * 2 ^ c + i : ℕ) : ℤ) * ((4 * m + 3 : ℕ) : ℤ))
          = f (bitrev c m) * dker d (2 ^ c) ((i : ℤ) * (m : ℤ))
            + (f (2 * 2 ^ c + bitrev c m) * dker d (2 ^ c) ((i : ℤ) * (m : ℤ)))
              * (twiddle d (4 * 2 ^ c) 1 i * dker d 4 1 ^ (r * 1))
            + (f (2 ^ c + bitrev c m) * dker d (2 ^ c) ((i : ℤ) * (m : ℤ)))
              * (twiddle d (4 * 2 ^ c) 2 i * dker d 4 1 ^ (r * 2))
            + (f (3 * 2 ^ c + bitrev c m) * dker d (2 ^ c) ((i : ℤ) * (m : ℤ)))
              * (twiddle d (4 * 2 ^ c) 3 i * dker d 4 1 ^ (r * 3)) := by
        intro m hm
        have hm' : m < 2 ^ c := Finset.mem_range.mp hm
        have hv0 : bitrev (c + 2) (4 * m) = bitrev c m := by
          have h := bitrev_four c m 0 hm' (by norm_num)
          rw [show bitrev 2 0 = 0 from by decide] at h
          simpa using h
        have hv1 : bitrev (c + 2) (4 * m + 1) = 2 * 2 ^ c + bitrev c m := by
          have h := bitrev_four c m 1 hm' (by norm_num)
          rw [h, show bitrev 2 1 = 2 from by decide]
        have hv2 : bitrev (c + 2) (4 * m + 2) = 2 ^ c + bitrev c m := by
          have h := bitrev_four c m 2 hm' (by norm_num)
          rw [h, show bitrev 2 2 = 1 from by decide]
          ring
        have hv3 : bitrev (c + 2) (4 * m + 3) = 3 * 2 ^ c + bitrev c m := by
          have h := bitrev_four c m 3 hm' (by norm_num)
          rw [h, show bitrev 2 3 = 3 from by decide]
        have hk0 : dker d (4 * 2 ^ c) (((r * 2 ^ c + i : ℕ) : ℤ) * ((4 * m : ℕ) : ℤ))
            = dker d (2 ^ c) ((i : ℤ) * (m : ℤ)) := by
          have h := dker_split d (2 ^ c) hqne r i m 0
          simp only [Nat.add_zero, Nat.mul_zero, pow_zero, mul_one, one_mul,
            twiddle_harm_zero] at h
          exact h
        have hk1 := dker_split d (2 ^ c) hqne r i m 1
        have hk2 := dker_split d (2 ^ c) hqne r i m 2
        have hk3 := dker_split d (2 ^ c) hqne r i m 3
        rw [hv0, hv1, hv2, hv3, hk0, hk1, hk2, hk3]
        ring
      rw [Finset.sum_congr rfl hterm, Finset.sum_add_distrib, Finset.sum_add_distrib,
        Finset.sum_add_distrib, ← Finset.sum_mul, ← Finset.sum_mul, ← Finset.sum_mul]
      have hι : dker d 4 1 * dker d 4 1 = -1 := dker_four_sq d hd
      have hp2 : dker d 4 1 ^ 2 = -1 := by rw [sq]; exact hι
      have hp3 : dker d 4 1 ^ 3 = -(dker d 4 1) := by
        rw [pow_succ, hp2]
        ring
      have hp4 : dker d 4 1 ^ 4 = 1 := by
        rw [show (4 : ℕ) = 2 * 2 from rfl, pow_mul, hp2]
        norm_num
      have hp6 : dker d 4 1 ^ 6 = -1 := by
        rw [show (6 : ℕ) = 2 * 3 from rfl, pow_mul, hp2]
        norm_num
      have hp9 : dker d 4 1 ^ 9 = dker d 4 1 := by
        rw [show (9 : ℕ) = 8 + 1 from rfl, pow_add, show (8 : ℕ) = 2 * 4 from rfl, pow_mul, hp2]
        norm_num
      rcases (by omega : r = 0 ∨ r = 1 ∨ r = 2 ∨ r = 3) with rfl | rfl | rfl | rfl
      · norm_num
        ring
      · norm_num
        rw [hp2, hp3]
        ring
      · norm_num
        rw [hp2, hp4, hp6]
        ring
      · norm_num
        rw [hp3, hp6, hp9]
        ring

end FFT

namespace FFT

/-! ### Generic evaluation of swap folds and assignment folds -/

/-- All buffer positions touched by a list of swaps. -/
def comps (L : List (ℕ × ℕ)) : List ℕ :=
  L.flatMap (fun p => [p.1, p.2])

theorem mem_comps {L : List (ℕ × ℕ)} {k : ℕ} :
    k ∈ comps L ↔ ∃ p ∈ L, k = p.1 ∨ k = p.2 := by
  simp only [comps, List.mem_flatMap, List.mem_cons, List.mem_singleton]
  constructor
  · rintro ⟨p, hp, h⟩
    exact ⟨p, hp, h.imp id (fun h2 => by simpa using h2)⟩
  · rintro ⟨p, hp, h⟩
    exact ⟨p, hp, h.imp id (fun h2 => by simp [h2])⟩

theorem comps_append (L1 L2 : List (ℕ × ℕ)) :
    comps (L1 ++ L2) = comps L1 ++ comps L2 := by
  simp [comps]

theorem foldSwaps_cons (f : ℕ → ℂ) (a : ℕ × ℕ) (t : List (ℕ × ℕ)) :
    foldSwaps f (a :: t) = foldSwaps (swapF f a.1 a.2) t := rfl

theorem foldSwaps_not_mem (L : List (ℕ × ℕ)) :
    ∀ (f : ℕ → ℂ) (k : ℕ), k ∉ comps L → foldSwaps f L k = f k := by
  induction L with
  | nil => intro f k _; rfl
  | cons a t ih =>
    intro f k hk
    have h1 : k ∉ comps t := by
      intro h
      exact hk (by rw [show a :: t = [a] ++ t from rfl, comps_append]; exact List.mem_append_right _ h)
    have h2 : k ≠ a.1 ∧ k ≠ a.2 := by
      constructor <;> intro h <;> exact hk (mem_comps.mpr ⟨a, by simp, by tauto⟩)
    rw [foldSwaps_cons, ih _ k h1, swapF, if_neg h2.1, if_neg h2.2]

theorem comps_closed (σ : ℕ → ℕ) (hσ : Function.Involutive σ) (L : List (ℕ × ℕ))
    (horb : ∀ p ∈ L, σ p.1 = p.2) {k : ℕ} (hk : k ∈ comps L) : σ k ∈ comps L := by
  obtain ⟨p, hp, hc⟩ := mem_comps.mp hk
  rcases hc with rfl | rfl
  · exact mem_comps.mpr ⟨p, hp, Or.inr (horb p hp)⟩
  · refine mem_comps.mpr ⟨p, hp, Or.inl ?_⟩
    rw [← horb p hp, hσ p.1]

theorem foldSwaps_eval (σ : ℕ → ℕ) (hσ : Function.Involutive σ) :
    ∀ (L : List (ℕ × ℕ)) (f : ℕ → ℂ) (k : ℕ),
      (∀ p ∈ L, σ p.1 = p.2) → (comps L).Nodup →
      foldSwaps f L k = if k ∈ comps L then f (σ k) else f k := by
  intro L
  induction L with
  | nil => intro f k _ _; simp [comps, foldSwaps]
  | cons a t ih =>
    intro f k horb hnd
    have hca : comps (a :: t) = a.1 :: a.2 :: comps t := by
      simp [comps]
    rw [hca] at hnd
    have hne : a.1 ≠ a.2 := by
      intro h
      rw [List.nodup_cons] at hnd
      exact hnd.1 (by simp [h])
    have ha1 : a.1 ∉ comps t := by
      rw [List.nodup_cons] at hnd
      exact fun h => hnd.1 (List.mem_cons_of_mem _ h)
    have ha2 : a.2 ∉ comps t := by
      rw [List.nodup_cons] at hnd
      have := hnd.2
      rw [List.nodup_cons] at this
      exact this.1
    have hndt : (comps t).Nodup := by
      rw [List.nodup_cons] at hnd
      have := hnd.2
      rw [List.nodup_cons] at this
      exact this.2
    have horbt : ∀ p ∈ t, σ p.1 = p.2 := fun p hp => horb p (List.mem_cons_of_mem _ hp)
    have hab : σ a.1 = a.2 := horb a (by simp)
    rw [foldSwaps_cons, ih (swapF f a.1 a.2) k horbt hndt, hca]
    by_cases hkt : k ∈ comps t
    · have hmem : k ∈ a.1 :: a.2 :: comps t := by simp [hkt]
      rw [if_pos hkt, if_pos hmem]
      have hσk : σ k ∈ comps t := comps_closed σ hσ t horbt hkt
      have h1 : σ k ≠ a.1 := fun h => ha1 (h ▸ hσk)
      have h2 : σ k ≠ a.2 := fun h => ha2 (h ▸ hσk)
      rw [swapF, if_neg h1, if_neg h2]
    · rw [if_neg hkt]
      by_cases hk1 : k = a.1
      · rw [if_pos (show k ∈ a.1 :: a.2 :: comps t by simp [hk1])]
        simp only [swapF, if_pos hk1]
        rw [hk1, hab]
      · by_cases hk2 : k = a.2
        · rw [if_pos (show k ∈ a.1 :: a.2 :: comps t by simp [hk2])]
          simp only [swapF, if_neg hk1, if_pos hk2]
          have hs : σ k = a.1 := by
            rw [hk2, ← hab, hσ a.1]
          rw [hs]
        · have hmem : k ∉ a.1 :: a.2 :: comps t := by
            simp [hk1, hk2, hkt]
          rw [if_neg hmem]
          simp only [swapF, if_neg hk1, if_neg hk2]

theorem oop_foldl_inp (A : List (ℕ × ℕ)) :
    ∀ st : Buffers, (A.foldl oopStep st).inp = st.inp := by
  induction A with
  | nil => intro st; rfl
  | cons a t ih =>
    intro st
    rw [List.foldl_cons, ih]
    rfl

theorem oop_foldl_out (σ : ℕ → ℕ) :
    ∀ (A : List (ℕ × ℕ)) (st : Buffers) (k : ℕ), (∀ p ∈ A, p.2 = σ p.1) →
      (A.foldl oopStep st).out k
        = if k ∈ A.map Prod.fst then st.inp (σ k) else st.out k := by
  intro A
  induction A with
  | nil => intro st k _; simp
  | cons a t ih =>
    intro st k hsrc
    have hsrct : ∀ p ∈ t, p.2 = σ p.1 := fun p hp => hsrc p (List.mem_cons_of_mem _ hp)
    rw [List.foldl_cons, ih (oopStep st a) k hsrct]
    by_cases hkt : k ∈ t.map Prod.fst
    · rw [if_pos hkt, if_pos (by simp [hkt]), oopStep]
    · rw [if_neg hkt]
      by_cases hk1 : k = a.1
      · rw [if_pos (show k ∈ (a :: t).map Prod.fst by simp [hk1])]
        simp only [oopStep, if_pos hk1]
        rw [hk1, hsrc a (by simp)]
      · have hnm : k ∉ (a :: t).map Prod.fst := by simp [hk1, hkt]
        rw [if_neg hnm]
        simp only [oopStep, if_neg hk1]

end FFT

namespace FFT

/-! ### The bit-reversal pattern: size, `ispow4` flag, and contents -/

theorem bitrev_zero_right (b : ℕ) : bitrev b 0 = 0 := by
  induction b with
  | zero => rfl
  | succ b ih => simp [bitrev, ih]

theorem bitrev_one_right (b : ℕ) : bitrev (b + 1) 1 = 2 ^ b := by
  simp [bitrev, bitrev_zero_right]

theorem bitrev_low (B i j : ℕ) (hij : i ≤ B) (hj : j < 2 ^ i) :
    bitrev B j = 2 ^ (B - i) * bitrev i j := by
  have h0 : (0 : ℕ) < 2 ^ (B - i) := Nat.pos_pow_of_pos _ (by norm_num)
  have h := bitrev_add_pow i (B - i) j 0 hj h0
  rw [show i + (B - i) = B from by omega] at h
  simpa [bitrev_zero_right] using h

theorem bitrev_set_high (B i j : ℕ) (hij : i < B) (hj : j < 2 ^ i) :
    bitrev B (2 ^ i + j) = bitrev B j + 2 ^ (B - i - 1) := by
  have h1 : 1 < 2 ^ (B - i) := Nat.one_lt_two_pow (by omega)
  have h := bitrev_add_pow i (B - i) j 1 hj h1
  rw [show i + (B - i) = B from by omega, mul_one] at h
  have hb1 : bitrev (B - i) 1 = 2 ^ (B - i - 1) := by
    obtain ⟨t, ht⟩ : ∃ t, B - i = t + 1 := ⟨B - i - 1, by omega⟩
    rw [ht, bitrev_one_right]
    simp
  rw [show 2 ^ i + j = j + 2 ^ i from by ring, h, hb1, bitrev_low B i j (by omega) hj]
  ring

theorem patternSizeImpl_pow4 : ∀ c m, 0 < m → patternSizeImpl (4 ^ (c + 1) * m) m = 2 ^ c * m := by
  intro c
  induction c with
  | zero =>
    intro m hm
    rw [patternSizeImpl]
    have h41 : (4 : ℕ) ^ 1 = 4 := by norm_num
    rw [h41, if_neg (by omega)]
    norm_num
  | succ c ih =>
    intro m hm
    rw [patternSizeImpl]
    have h4 : (4 : ℕ) < 4 ^ (c + 2) := by
      calc (4 : ℕ) < 16 := by norm_num
      _ = 4 ^ 2 := by norm_num
      _ ≤ 4 ^ (c + 2) := Nat.pow_le_pow_right (by norm_num) (by omega)
    have hguard : 4 * m < 4 ^ (c + 2) * m := (Nat.mul_lt_mul_right hm).mpr h4
    rw [if_pos hguard]
    have hdiv : 4 ^ (c + 2) * m / 2 = 4 ^ (c + 1) * (2 * m) := by
      have he : 4 ^ (c + 2) * m = 2 * (4 ^ (c + 1) * (2 * m)) := by ring
      rw [he, Nat.mul_div_cancel_left _ (by norm_num)]
    rw [hdiv, ih (2 * m) (by omega)]
    ring

theorem patternSizeImpl_two_pow4 : ∀ c m, 0 < m → patternSizeImpl (2 * 4 ^ c * m) m = 2 ^ c * m := by
  intro c
  induction c with
  | zero =>
    intro m hm
    rw [patternSizeImpl]
    have h40 : (4 : ℕ) ^ 0 = 1 := by norm_num
    rw [h40, if_neg (by omega)]
    norm_num
  | succ c ih =>
    intro m hm
    rw [patternSizeImpl]
    have h4 : (4 : ℕ) < 2 * 4 ^ (c + 1) := by
      calc (4 : ℕ) < 8 := by norm_num
      _ = 2 * 4 ^ 1 := by norm_num
      _ ≤ 2 * 4 ^ (c + 1) := by
        have := Nat.pow_le_pow_right (show 1 ≤ 4 by norm_num) (show 1 ≤ c + 1 by omega)
        omega
    have hguard : 4 * m < 2 * 4 ^ (c + 1) * m := (Nat.mul_lt_mul_right hm).mpr h4
    rw [if_pos hguard]
    have hdiv : 2 * 4 ^ (c + 1) * m / 2 = 2 * 4 ^ c * (2 * m) := by
      have he : 2 * 4 ^ (c + 1) * m = 2 * (2 * 4 ^ c * (2 * m)) := by ring
      rw [he, Nat.mul_div_cancel_left _ (by norm_num)]
    rw [hdiv, ih (2 * m) (by omega)]
    ring

theorem ispow4Impl_pow4 : ∀ c m, 0 < m → ispow4Impl (4 ^ (c + 1) * m) m = true := by
  intro c
  induction c with
  | zero =>
    intro m hm
    rw [ispow4Impl]
    have h41 : (4 : ℕ) ^ 1 = 4 := by norm_num
    rw [h41, if_neg (by omega)]
    simp
  | succ c ih =>
    intro m hm
    rw [ispow4Impl]
    have h4 : (4 : ℕ) < 4 ^ (c + 2) := by
      calc (4 : ℕ) < 16 := by norm_num
      _ = 4 ^ 2 := by norm_num
      _ ≤ 4 ^ (c + 2) := Nat.pow_le_pow_right (by norm_num) (by omega)
    have hguard : 4 * m < 4 ^ (c + 2) * m := (Nat.mul_lt_mul_right hm).mpr h4
    rw [if_pos hguard]
    have hdiv : 4 ^ (c + 2) * m / 2 = 4 ^ (c + 1) * (2 * m) := by
      have he : 4 ^ (c + 2) * m = 2 * (4 ^ (c + 1) * (2 * m)) := by ring
      rw [he, Nat.mul_div_cancel_left _ (by norm_num)]
    rw [hdiv, ih (2 * m) (by omega)]

theorem ispow4Impl_two_pow4 : ∀ c m, 0 < m → ispow4Impl (2 * 4 ^ c * m) m = false := by
  intro c
  induction c with
  | zero =>
    intro m hm
    rw [ispow4Impl]
    have h40 : (4 : ℕ) ^ 0 = 1 := by norm_num
    rw [h40, if_neg (by omega)]
    simp
    omega
  | succ c ih =>
    intro m hm
    rw [ispow4Impl]
    have h4 : (4 : ℕ) < 2 * 4 ^ (c + 1) := by
      have := Nat.pow_le_pow_right (show 1 ≤ 4 by norm_num) (show 1 ≤ c + 1 by omega)
      omega
    have hguard : 4 * m < 2 * 4 ^ (c + 1) * m := (Nat.mul_lt_mul_right hm).mpr h4
    rw [if_pos hguard]
    have hdiv : 2 * 4 ^ (c + 1) * m / 2 = 2 * 4 ^ c * (2 * m) := by
      have he : 2 * 4 ^ (c + 1) * m = 2 * (2 * 4 ^ c * (2 * m)) := by ring
      rw [he, Nat.mul_div_cancel_left _ (by norm_num)]
    rw [hdiv, ih (2 * m) (by omega)]

theorem two_pow_even_eq (c : ℕ) : (2 : ℕ) ^ (2 * c + 2) = 4 ^ (c + 1) * 1 := by
  rw [mul_one, show (4 : ℕ) ^ (c + 1) = 2 ^ (2 * (c + 1)) from by
    rw [show (4 : ℕ) = 2 ^ 2 from by norm_num, ← pow_mul], show 2 * (c + 1) = 2 * c + 2 from by ring]

theorem two_pow_odd_eq (c : ℕ) : (2 : ℕ) ^ (2 * c + 1) = 2 * 4 ^ c * 1 := by
  rw [mul_one, show (4 : ℕ) ^ c = 2 ^ (2 * c) from by
    rw [show (4 : ℕ) = 2 ^ 2 from by norm_num, ← pow_mul], pow_succ]
  ring

theorem patternSize_even (c : ℕ) : patternSize (2 ^ (2 * c + 2)) = 2 ^ c := by
  rw [patternSize, two_pow_even_eq, patternSizeImpl_pow4 c 1 (by norm_num), mul_one]

theorem patternSize_odd (c : ℕ) : patternSize (2 ^ (2 * c + 1)) = 2 ^ c := by
  rw [patternSize, two_pow_odd_eq, patternSizeImpl_two_pow4 c 1 (by norm_num), mul_one]

theorem ispow4_even (c : ℕ) : ispow4 (2 ^ (2 * c + 2)) = true := by
  rw [ispow4, two_pow_even_eq]
  exact ispow4Impl_pow4 c 1 (by norm_num)

theorem ispow4_odd (c : ℕ) : ispow4 (2 ^ (2 * c + 1)) = false := by
  rw [ispow4, two_pow_odd_eq]
  exact ispow4Impl_two_pow4 c 1 (by norm_num)

theorem bitpatternLoop_pow (B : ℕ) :
    ∀ e i, i + e = B →
      bitpatternLoop (2 ^ e) (2 ^ i) ((List.range (2 ^ i)).map (bitrev B))
        = (List.range (patternSizeImpl (2 ^ e) (2 ^ i))).map (bitrev B) := by
  intro e
  induction e with
  | zero =>
    intro i _
    have hng : ¬(4 * 2 ^ i < 2 ^ 0) := by
      have := Nat.pos_pow_of_pos i (show 0 < 2 by norm_num)
      simp
      try omega
    rw [bitpatternLoop, if_neg hng, patternSizeImpl, if_neg hng]
  | succ e ih =>
    intro i hi
    rw [bitpatternLoop, patternSizeImpl]
    by_cases hg : 4 * 2 ^ i < 2 ^ (e + 1)
    · rw [if_pos hg, if_pos hg]
      have htake : (((List.range (2 ^ i)).map (bitrev B)).take (2 ^ i))
          = (List.range (2 ^ i)).map (bitrev B) :=
        List.take_of_length_le (by simp)
      have hhalf : 2 ^ (e + 1) / 2 = 2 ^ e := by
        rw [pow_succ, Nat.mul_div_cancel _ (by norm_num)]
      rw [htake, hhalf]
      have hstep : (List.range (2 ^ i)).map (bitrev B)
            ++ ((List.range (2 ^ i)).map (bitrev B)).map (fun x => x + 2 ^ e)
          = (List.range (2 ^ (i + 1))).map (bitrev B) := by
        rw [show (2 : ℕ) ^ (i + 1) = 2 ^ i + 2 ^ i from by rw [pow_succ]; ring, List.range_add,
          List.map_append, List.map_map, List.map_map]
        congr 1
        apply List.map_congr_left
        intro j hj
        have hj' : j < 2 ^ i := List.mem_range.mp hj
        have hiB : i < B := by omega
        have h := bitrev_set_high B i j hiB hj'
        rw [show B - i - 1 = e from by omega] at h
        simp only [Function.comp]
        rw [h]
      rw [hstep, show 2 * 2 ^ i = 2 ^ (i + 1) from by rw [pow_succ]; ring]
      exact ih (i + 1) (by omega)
    · rw [if_neg hg, if_neg hg]

theorem pattern_even (c : ℕ) :
    pattern (2 ^ (2 * c + 2)) = (List.range (2 ^ c)).map (bitrev (2 * c + 2)) := by
  rw [pattern, patternSize_even, ispow4_even, bitpattern]
  have h1 : (if (true : Bool) then 4 * (2 ^ c * 2 ^ c) else 2 * (2 ^ c * 2 ^ c)) = 2 ^ (2 * c + 2) := by
    rw [if_pos (show (true : Bool) = true from rfl), ← pow_add,
      show (4 : ℕ) = 2 ^ 2 from by norm_num, ← pow_add, show 2 + (c + c) = 2 * c + 2 from by omega]
  rw [h1]
  have key := bitpatternLoop_pow (2 * c + 2) (2 * c + 2) 0 (by omega)
  simp only [pow_zero, show List.range 1 = [0] from rfl, List.map_cons, List.map_nil,
    bitrev_zero_right] at key
  rw [key, show patternSizeImpl (2 ^ (2 * c + 2)) 1 = 2 ^ c from patternSize_even c]

theorem pattern_odd (c : ℕ) :
    pattern (2 ^ (2 * c + 1)) = (List.range (2 ^ c)).map (bitrev (2 * c + 1)) := by
  rw [pattern, patternSize_odd, ispow4_odd, bitpattern]
  have h1 : (if (false : Bool) then 4 * (2 ^ c * 2 ^ c) else 2 * (2 ^ c * 2 ^ c)) = 2 ^ (2 * c + 1) := by
    rw [if_neg (show ¬((false : Bool) = true) by simp), ← pow_add,
      show 2 * c + 1 = (c + c) + 1 from by omega, pow_succ]
    ring
  rw [h1]
  have key := bitpatternLoop_pow (2 * c + 1) (2 * c + 1) 0 (by omega)
  simp only [pow_zero, show List.range 1 = [0] from rfl, List.map_cons, List.map_nil,
    bitrev_zero_right] at key
  rw [key, show patternSizeImpl (2 ^ (2 * c + 1)) 1 = 2 ^ c from patternSize_odd c]

end FFT

namespace FFT

/-! ### Digit decomposition of buffer indices for the reindex permutation -/

/-- Index decomposition for `N = 2^(2c+2)`: low `c` bits `j`, two middle bits
`r`, high `c` bits `h`. -/
def dig4 (c j r h : ℕ) : ℕ :=
  j + 2 ^ c * r + 2 ^ (c + 2) * h

/-- Index decomposition for `N = 2^(2c+1)`: low `c` bits `j`, one middle bit
`r`, high `c` bits `h`. -/
def dig2 (c j r h : ℕ) : ℕ :=
  j + 2 ^ c * r + 2 ^ (c + 1) * h

theorem dig4_eq (c j r h : ℕ) : dig4 c j r h = j + 2 ^ c * (r + 4 * h) := by
  rw [dig4, pow_add]
  ring

theorem dig2_eq (c j r h : ℕ) : dig2 c j r h = j + 2 ^ c * (r + 2 * h) := by
  rw [dig2, pow_add]
  ring

theorem dig4_lt (c : ℕ) {j r h : ℕ} (hj : j < 2 ^ c) (hr : r < 4) (hh : h < 2 ^ c) :
    dig4 c j r h < 2 ^ (2 * c + 2) := by
  have he : (2 : ℕ) ^ (c + 2) = 2 ^ c * 4 := by
    rw [pow_add]
    norm_num
  have hr3 : 2 ^ c * r ≤ 2 ^ c * 3 := Nat.mul_le_mul_left _ (by omega)
  have step1 : j + 2 ^ c * r < 2 ^ (c + 2) := by omega
  have step2 : 2 ^ (c + 2) * (h + 1) ≤ 2 ^ (c + 2) * 2 ^ c := Nat.mul_le_mul_left _ (by omega)
  rw [Nat.mul_succ] at step2
  have hN : (2 : ℕ) ^ (c + 2) * 2 ^ c = 2 ^ (2 * c + 2) := by
    rw [← pow_add]
    congr 1
    omega
  rw [hN] at step2
  rw [dig4]
  omega

theorem dig2_lt (c : ℕ) {j r h : ℕ} (hj : j < 2 ^ c) (hr : r < 2) (hh : h < 2 ^ c) :
    dig2 c j r h < 2 ^ (2 * c + 1) := by
  have he : (2 : ℕ) ^ (c + 1) = 2 ^ c * 2 := by
    rw [pow_add]
    norm_num
  have hr1 : 2 ^ c * r ≤ 2 ^ c * 1 := Nat.mul_le_mul_left _ (by omega)
  have step1 : j + 2 ^ c * r < 2 ^ (c + 1) := by omega
  have step2 : 2 ^ (c + 1) * (h + 1) ≤ 2 ^ (c + 1) * 2 ^ c := Nat.mul_le_mul_left _ (by omega)
  rw [Nat.mul_succ] at step2
  have hN : (2 : ℕ) ^ (c + 1) * 2 ^ c = 2 ^ (2 * c + 1) := by
    rw [← pow_add]
    congr 1
    omega
  rw [hN] at step2
  rw [dig2]
  omega

theorem low_digit_extract (c j t : ℕ) (hj : j < 2 ^ c) : (j + 2 ^ c * t) % 2 ^ c = j := by
  rw [Nat.add_mul_mod_self_left, Nat.mod_eq_of_lt hj]

theorem high_digit_extract (c j t : ℕ) (hj : j < 2 ^ c) : (j + 2 ^ c * t) / 2 ^ c = t := by
  rw [Nat.add_mul_div_left _ _ (Nat.pos_pow_of_pos c (by norm_num)),
    Nat.div_eq_of_lt hj, Nat.zero_add]

theorem dig4_inj (c : ℕ) {j r h j' r' h' : ℕ} (hj : j < 2 ^ c) (hr : r < 4)
    (hj' : j' < 2 ^ c) (hr' : r' < 4)
    (he : dig4 c j r h = dig4 c j' r' h') : j = j' ∧ r = r' ∧ h = h' := by
  rw [dig4_eq, dig4_eq] at he
  have h1 : j = j' := by
    have e1 := low_digit_extract c j (r + 4 * h) hj
    have e2 := low_digit_extract c j' (r' + 4 * h') hj'
    rw [← e1, ← e2, he]
  have h2 : r + 4 * h = r' + 4 * h' := by
    have e1 := high_digit_extract c j (r + 4 * h) hj
    have e2 := high_digit_extract c j' (r' + 4 * h') hj'
    rw [← e1, ← e2, he]
  refine ⟨h1, by omega, by omega⟩

theorem dig2_inj (c : ℕ) {j r h j' r' h' : ℕ} (hj : j < 2 ^ c) (hr : r < 2)
    (hj' : j' < 2 ^ c) (hr' : r' < 2)
    (he : dig2 c j r h = dig2 c j' r' h') : j = j' ∧ r = r' ∧ h = h' := by
  rw [dig2_eq, dig2_eq] at he
  have h1 : j = j' := by
    have e1 := low_digit_extract c j (r + 2 * h) hj
    have e2 := low_digit_extract c j' (r' + 2 * h') hj'
    rw [← e1, ← e2, he]
  have h2 : r + 2 * h = r' + 2 * h' := by
    have e1 := high_digit_extract c j (r + 2 * h) hj
    have e2 := high_digit_extract c j' (r' + 2 * h') hj'
    rw [← e1, ← e2, he]
  refine ⟨h1, by omega, by omega⟩

theorem dig4_surj (c t : ℕ) (ht : t < 2 ^ (2 * c + 2)) :
    ∃ j r h, j < 2 ^ c ∧ r < 4 ∧ h < 2 ^ c ∧ t = dig4 c j r h := by
  have hp : 0 < 2 ^ c := Nat.pos_pow_of_pos c (by norm_num)
  refine ⟨t % 2 ^ c, t / 2 ^ c % 4, t / 2 ^ (c + 2), Nat.mod_lt _ hp, Nat.mod_lt _ (by norm_num), ?_, ?_⟩
  · have hN : (2 : ℕ) ^ (2 * c + 2) = 2 ^ (c + 2) * 2 ^ c := by
      rw [← pow_add]
      congr 1
      omega
    rw [Nat.div_lt_iff_lt_mul (Nat.pos_pow_of_pos (c + 2) (by norm_num))]
    rw [hN] at ht
    calc t < 2 ^ (c + 2) * 2 ^ c := ht
    _ = 2 ^ c * 2 ^ (c + 2) := by ring
  · rw [dig4_eq]
    have h1 : t % 2 ^ c + 2 ^ c * (t / 2 ^ c) = t := Nat.mod_add_div t (2 ^ c)
    have h2 : t / 2 ^ c % 4 + 4 * (t / 2 ^ c / 4) = t / 2 ^ c := Nat.mod_add_div _ 4
    have h3 : t / 2 ^ c / 4 = t / 2 ^ (c + 2) := by
      rw [Nat.div_div_eq_div_mul]
      congr 1
      rw [pow_add]
      norm_num
    rw [← h3, h2, h1]

theorem dig2_surj (c t : ℕ) (ht : t < 2 ^ (2 * c + 1)) :
    ∃ j r h, j < 2 ^ c ∧ r < 2 ∧ h < 2 ^ c ∧ t = dig2 c j r h := by
  have hp : 0 < 2 ^ c := Nat.pos_pow_of_pos c (by norm_num)
  refine ⟨t % 2 ^ c, t / 2 ^ c % 2, t / 2 ^ (c + 1), Nat.mod_lt _ hp,
    Nat.mod_lt _ (by norm_num), ?_, ?_⟩
  · have hN : (2 : ℕ) ^ (2 * c + 1) = 2 ^ (c + 1) * 2 ^ c := by
      rw [← pow_add]
      congr 1
      omega
    rw [Nat.div_lt_iff_lt_mul (Nat.pos_pow_of_pos (c + 1) (by norm_num))]
    rw [hN] at ht
    calc t < 2 ^ (c + 1) * 2 ^ c := ht
    _ = 2 ^ c * 2 ^ (c + 1) := by ring
  · rw [dig2_eq]
    have h1 : t % 2 ^ c + 2 ^ c * (t / 2 ^ c) = t := Nat.mod_add_div t (2 ^ c)
    have h2 : t / 2 ^ c % 2 + 2 * (t / 2 ^ c / 2) = t / 2 ^ c := Nat.mod_add_div _ 2
    have h3 : t / 2 ^ c / 2 = t / 2 ^ (c + 1) := by
      rw [Nat.div_div_eq_div_mul]
      congr 1
    rw [← h3, h2, h1]

end FFT

namespace FFT

/-! ### Bit reversal in digit form, and the reindex permutation `sigmaN` -/

theorem bitrev_dig4 (c : ℕ) {j r h : ℕ} (hj : j < 2 ^ c) (hr : r < 4) (hh : h < 2 ^ c) :
    bitrev (2 * c + 2) (dig4 c j r h) = dig4 c (bitrev c h) (bitrev 2 r) (bitrev c j) := by
  have he : (2 : ℕ) ^ (c + 2) = 2 ^ c * 4 := by
    rw [pow_add]
    norm_num
  have hrh : r + 4 * h < 2 ^ (c + 2) := by
    have : 4 * (h + 1) ≤ 4 * 2 ^ c := by omega
    omega
  have houter := bitrev_add_pow c (c + 2) j (r + 4 * h) hj hrh
  rw [show c + (c + 2) = 2 * c + 2 from by omega] at houter
  have hinner := bitrev_add_pow 2 c r h (by omega) hh
  rw [show (2 : ℕ) + c = c + 2 from by omega] at hinner
  rw [dig4_eq, houter, show r + 4 * h = r + 2 ^ 2 * h from by norm_num, hinner, dig4]

theorem bitrev_dig2 (c : ℕ) {j r h : ℕ} (hj : j < 2 ^ c) (hr : r < 2) (hh : h < 2 ^ c) :
    bitrev (2 * c + 1) (dig2 c j r h) = dig2 c (bitrev c h) r (bitrev c j) := by
  have he : (2 : ℕ) ^ (c + 1) = 2 ^ c * 2 := by
    rw [pow_add]
    norm_num
  have hrh : r + 2 * h < 2 ^ (c + 1) := by
    have : 2 * (h + 1) ≤ 2 * 2 ^ c := by omega
    omega
  have houter := bitrev_add_pow c (c + 1) j (r + 2 * h) hj hrh
  rw [show c + (c + 1) = 2 * c + 1 from by omega] at houter
  have hinner := bitrev_add_pow 1 c r h (by omega) hh
  rw [show (1 : ℕ) + c = c + 1 from by omega] at hinner
  have hb1 : bitrev 1 r = r := by
    rcases (by omega : r = 0 ∨ r = 1) with rfl | rfl <;> decide
  rw [dig2_eq, houter, show r + 2 * h = r + 2 ^ 1 * h from by norm_num, hinner, hb1, dig2]

theorem bitrev_high (c B k : ℕ) (hc : c ≤ B) (hk : k < 2 ^ c) :
    bitrev B k = 2 ^ (B - c) * bitrev c k :=
  bitrev_low B c k hc hk

/-- The permutation realised by `FFT::Transform::reindex` for length `N`:
bit reversal on `[0, N)` for `N = 2^b`, identity elsewhere. -/
def sigmaN (b : ℕ) (t : ℕ) : ℕ :=
  if t < 2 ^ b then bitrev b t else t

theorem sigmaN_involutive (b : ℕ) : Function.Involutive (sigmaN b) := by
  intro t
  by_cases ht : t < 2 ^ b
  · simp [sigmaN, ht, bitrev_lt b t, bitrev_bitrev b t ht]
  · simp [sigmaN, ht]

theorem sigmaN_lt (b t : ℕ) (ht : t < 2 ^ b) : sigmaN b t = bitrev b t := by
  rw [sigmaN, if_pos ht]

end FFT

namespace FFT

/-! ### The swap lists of `reindex` in digit form -/

theorem getD_map_range (M k : ℕ) (f : ℕ → ℕ) (hk : k < M) :
    (((List.range M).map f).getD k 0) = f k := by
  rw [List.getD_eq_getElem?_getD, List.getElem?_map, List.getElem?_range hk]
  rfl

theorem flatMap_congr {α β : Type} {l : List α} {f g : α → List β}
    (h : ∀ a ∈ l, f a = g a) : l.flatMap f = l.flatMap g := by
  induction l with
  | nil => rfl
  | cons a t ih =>
    simp only [List.flatMap_cons]
    rw [h a (by simp), ih (fun x hx => h x (by simp [hx]))]

theorem pairs4_map_eq (c : ℕ) :
    pairs4 ((List.range (2 ^ c)).map (bitrev (2 * c + 2))) (2 ^ c)
      = (List.range (2 ^ c)).flatMap (fun k =>
          ((List.range k).flatMap (fun j =>
            [(dig4 c j 0 (bitrev c k), dig4 c k 0 (bitrev c j)),
             (dig4 c j 1 (bitrev c k), dig4 c k 2 (bitrev c j)),
             (dig4 c j 2 (bitrev c k), dig4 c k 1 (bitrev c j)),
             (dig4 c j 3 (bitrev c k), dig4 c k 3 (bitrev c j))]))
          ++ [(dig4 c k 1 (bitrev c k), dig4 c k 2 (bitrev c k))]) := by
  rw [pairs4]
  apply flatMap_congr
  intro k hk
  have hk' : k < 2 ^ c := List.mem_range.mp hk
  have hpk : (((List.range (2 ^ c)).map (bitrev (2 * c + 2))).getD k 0)
      = 2 ^ (c + 2) * bitrev c k := by
    rw [getD_map_range _ _ _ hk', bitrev_high c (2 * c + 2) k (by omega) hk',
      show 2 * c + 2 - c = c + 2 from by omega]
  congr 1
  · apply flatMap_congr
    intro j hj
    have hj' : j < 2 ^ c := by
      have := List.mem_range.mp hj
      omega
    have hpj : (((List.range (2 ^ c)).map (bitrev (2 * c + 2))).getD j 0)
        = 2 ^ (c + 2) * bitrev c j := by
      rw [getD_map_range _ _ _ hj', bitrev_high c (2 * c + 2) j (by omega) hj',
        show 2 * c + 2 - c = c + 2 from by omega]
    rw [hpk, hpj]
    simp only [dig4, Prod.mk.injEq, List.cons.injEq, and_true, List.nil_eq]
    omega
  · rw [hpk]
    simp only [dig4, Prod.mk.injEq, List.cons.injEq, and_true, List.nil_eq]
    omega

theorem pairs2_map_eq (c : ℕ) :
    pairs2 ((List.range (2 ^ c)).map (bitrev (2 * c + 1))) (2 ^ c)
      = (List.range' 1 (2 ^ c - 1)).flatMap (fun k =>
          (List.range k).flatMap (fun j =>
            [(dig2 c j 0 (bitrev c k), dig2 c k 0 (bitrev c j)),
             (dig2 c j 1 (bitrev c k), dig2 c k 1 (bitrev c j))])) := by
  rw [pairs2]
  apply flatMap_congr
  intro k hk
  have hk' : k < 2 ^ c := by
    have := List.mem_range'.mp hk
    omega
  have hpk : (((List.range (2 ^ c)).map (bitrev (2 * c + 1))).getD k 0)
      = 2 ^ (c + 1) * bitrev c k := by
    rw [getD_map_range _ _ _ hk', bitrev_high c (2 * c + 1) k (by omega) hk',
      show 2 * c + 1 - c = c + 1 from by omega]
  apply flatMap_congr
  intro j hj
  have hj' : j < 2 ^ c := by
    have := List.mem_range.mp hj
    omega
  have hpj : (((List.range (2 ^ c)).map (bitrev (2 * c + 1))).getD j 0)
      = 2 ^ (c + 1) * bitrev c j := by
    rw [getD_map_range _ _ _ hj', bitrev_high c (2 * c + 1) j (by omega) hj',
      show 2 * c + 1 - c = c + 1 from by omega]
  rw [hpk, hpj]
  simp only [dig2, Prod.mk.injEq, List.cons.injEq, and_true, List.nil_eq]
  omega

end FFT

namespace FFT

/-! ### Combinatorics of the `ispow4` swap list -/

/-- The buffer positions touched by block `k` of the `ispow4` in-place reindex,
in digit form. -/
def comps4 (c k : ℕ) : List ℕ :=
  ((List.range k).flatMap (fun j =>
    [dig4 c j 0 (bitrev c k), dig4 c k 0 (bitrev c j),
     dig4 c j 1 (bitrev c k), dig4 c k 2 (bitrev c j),
     dig4 c j 2 (bitrev c k), dig4 c k 1 (bitrev c j),
     dig4 c j 3 (bitrev c k), dig4 c k 3 (bitrev c j)]))
  ++ [dig4 c k 1 (bitrev c k), dig4 c k 2 (bitrev c k)]

theorem nodup_map_dig4 (c : ℕ) (TL : List (ℕ × ℕ × ℕ))
    (hb : ∀ t ∈ TL, t.1 < 2 ^ c ∧ t.2.1 < 4) (hnd : TL.Nodup) :
    (TL.map (fun t => dig4 c t.1 t.2.1 t.2.2)).Nodup := by
  refine hnd.map_on ?_
  intro t ht t' ht' he
  have h := dig4_inj c (hb t ht).1 (hb t ht).2 (hb t' ht').1 (hb t' ht').2 he
  rw [Prod.ext_iff, Prod.ext_iff]
  exact ⟨h.1, h.2.1, h.2.2⟩

theorem sigma_dig4 (c : ℕ) {j ρ k : ℕ} (hj : j < 2 ^ c) (hρ : ρ < 4) (hk : k < 2 ^ c) :
    sigmaN (2 * c + 2) (dig4 c j ρ (bitrev c k)) = dig4 c k (bitrev 2 ρ) (bitrev c j) := by
  rw [sigmaN_lt _ _ (dig4_lt c hj hρ (bitrev_lt c k)),
    bitrev_dig4 c hj hρ (bitrev_lt c k), bitrev_bitrev c k hk]

theorem comps4_eq_map (c k j : ℕ) :
    ([dig4 c j 0 (bitrev c k), dig4 c k 0 (bitrev c j),
      dig4 c j 1 (bitrev c k), dig4 c k 2 (bitrev c j),
      dig4 c j 2 (bitrev c k), dig4 c k 1 (bitrev c j),
      dig4 c j 3 (bitrev c k), dig4 c k 3 (bitrev c j)] : List ℕ)
    = ([(j, 0, bitrev c k), (k, 0, bitrev c j), (j, 1, bitrev c k), (k, 2, bitrev c j),
        (j, 2, bitrev c k), (k, 1, bitrev c j), (j, 3, bitrev c k), (k, 3, bitrev c j)]
        : List (ℕ × ℕ × ℕ)).map (fun t => dig4 c t.1 t.2.1 t.2.2) := rfl

theorem comps4_nodup (c : ℕ) {k : ℕ} (hk : k < 2 ^ c) : (comps4 c k).Nodup := by
  have hb12 : ∀ a b : ℕ, a < 2 ^ c → b < 2 ^ c → bitrev c a = bitrev c b → a = b :=
    fun a b ha hb h => bitrev_inj c ha hb h
  rw [comps4]
  apply List.Nodup.append
  · rw [List.nodup_flatMap]
    constructor
    · intro j hj
      have hj' : j < k := List.mem_range.mp hj
      rw [comps4_eq_map]
      apply nodup_map_dig4
      · intro t ht
        simp only [List.mem_cons, List.not_mem_nil, or_false] at ht
        rcases ht with rfl|rfl|rfl|rfl|rfl|rfl|rfl|rfl <;> dsimp only <;> omega
      · simp only [List.nodup_cons, List.mem_cons, List.not_mem_nil, or_false, List.nodup_nil,
          and_true, Prod.mk.injEq, not_or, true_and, not_false_iff]
        omega
    · apply List.Pairwise.imp_of_mem ?_ (List.pairwise_lt_range k)
      intro j1 j2 hj1 hj2 hlt
      have hj1' : j1 < k := List.mem_range.mp hj1
      have hj2' : j2 < k := List.mem_range.mp hj2
      intro y hy1 hy2
      simp only [List.mem_cons, List.not_mem_nil, or_false] at hy1 hy2
      rcases hy1 with rfl|rfl|rfl|rfl|rfl|rfl|rfl|rfl <;>
        rcases hy2 with he|he|he|he|he|he|he|he <;>
        · have h3 := dig4_inj c (by omega) (by omega) (by omega) (by omega) he
          have h4 : ∀ u v : ℕ, u < 2 ^ c → v < 2 ^ c → bitrev c u = bitrev c v → u = v := hb12
          rcases h3 with ⟨e1, e2, e3⟩
          first
            | omega
            | (have h5 := h4 j1 j2 (by omega) (by omega) e3; omega)
            | (have h5 := h4 j1 k (by omega) (by omega) e3; omega)
            | (have h5 := h4 k j2 (by omega) (by omega) e3; omega)
  · simp only [List.nodup_cons, List.mem_cons, List.not_mem_nil, or_false, List.nodup_nil,
      and_true, not_false_iff]
    intro he
    have h3 := dig4_inj c (by omega) (by omega) (by omega) (by omega) he
    omega
  · intro y hy1 hy2
    obtain ⟨j, hj, hy1⟩ := List.mem_flatMap.mp hy1
    have hj' : j < k := List.mem_range.mp hj
    simp only [List.mem_cons, List.not_mem_nil, or_false] at hy1 hy2
    rcases hy1 with rfl|rfl|rfl|rfl|rfl|rfl|rfl|rfl <;> rcases hy2 with he|he <;>
      · have h3 := dig4_inj c (by omega) (by omega) (by omega) (by omega) he
        rcases h3 with ⟨e1, e2, e3⟩
        first
          | omega
          | (have h5 := hb12 j k (by omega) (by omega) e3; omega)

theorem mem_comps4 {c k : ℕ} {y : ℕ} (hy : y ∈ comps4 c k) :
    ∃ j ρ, ρ < 4 ∧ ((j ≤ k ∧ y = dig4 c j ρ (bitrev c k)) ∨ (j < k ∧ y = dig4 c k ρ (bitrev c j))) := by
  rw [comps4] at hy
  rcases List.mem_append.mp hy with hy | hy
  · obtain ⟨j, hj, hy⟩ := List.mem_flatMap.mp hy
    have hj' : j < k := List.mem_range.mp hj
    simp only [List.mem_cons, List.not_mem_nil, or_false] at hy
    rcases hy with rfl|rfl|rfl|rfl|rfl|rfl|rfl|rfl
    · exact ⟨j, 0, by omega, Or.inl ⟨by omega, rfl⟩⟩
    · exact ⟨j, 0, by omega, Or.inr ⟨hj', rfl⟩⟩
    · exact ⟨j, 1, by omega, Or.inl ⟨by omega, rfl⟩⟩
    · exact ⟨j, 2, by omega, Or.inr ⟨hj', rfl⟩⟩
    · exact ⟨j, 2, by omega, Or.inl ⟨by omega, rfl⟩⟩
    · exact ⟨j, 1, by omega, Or.inr ⟨hj', rfl⟩⟩
    · exact ⟨j, 3, by omega, Or.inl ⟨by omega, rfl⟩⟩
    · exact ⟨j, 3, by omega, Or.inr ⟨hj', rfl⟩⟩
  · simp only [List.mem_cons, List.not_mem_nil, or_false] at hy
    rcases hy with rfl|rfl
    · exact ⟨k, 1, by omega, Or.inl ⟨le_refl k, rfl⟩⟩
    · exact ⟨k, 2, by omega, Or.inl ⟨le_refl k, rfl⟩⟩

theorem comps4_bound {c k y : ℕ} (hk : k < 2 ^ c) (hy : y ∈ comps4 c k) :
    y < 2 ^ (2 * c + 2) := by
  obtain ⟨j, ρ, hρ, hcase⟩ := mem_comps4 hy
  rcases hcase with ⟨hj, rfl⟩ | ⟨hj, rfl⟩
  · exact dig4_lt c (by omega) hρ (bitrev_lt c k)
  · exact dig4_lt c hk hρ (bitrev_lt c j)

theorem flatMap_comps4_nodup (c : ℕ) : ((List.range (2 ^ c)).flatMap (comps4 c)).Nodup := by
  rw [List.nodup_flatMap]
  constructor
  · intro k hk
    exact comps4_nodup c (List.mem_range.mp hk)
  · apply List.Pairwise.imp_of_mem ?_ (List.pairwise_lt_range _)
    intro k1 k2 hk1 hk2 hlt
    have hk1' : k1 < 2 ^ c := List.mem_range.mp hk1
    have hk2' : k2 < 2 ^ c := List.mem_range.mp hk2
    intro y hy1 hy2
    obtain ⟨j1, ρ1, hρ1, hcase1⟩ := mem_comps4 hy1
    obtain ⟨j2, ρ2, hρ2, hcase2⟩ := mem_comps4 hy2
    rcases hcase1 with ⟨hj1, rfl⟩ | ⟨hj1, rfl⟩ <;> rcases hcase2 with ⟨hj2, he⟩ | ⟨hj2, he⟩
    · have h3 := dig4_inj c (by omega) (by omega) (by omega) (by omega) he
      have := bitrev_inj c (by omega : k1 < 2 ^ c) (by omega) h3.2.2
      omega
    · have h3 := dig4_inj c (by omega) (by omega) (by omega) (by omega) he
      omega
    · have h3 := dig4_inj c (by omega) (by omega) (by omega) (by omega) he
      have := bitrev_inj c (by omega : j1 < 2 ^ c) (by omega) h3.2.2
      omega
    · have h3 := dig4_inj c (by omega) (by omega) (by omega) (by omega) he
      omega

end FFT

namespace FFT

theorem comps_eq_flatMap_comps4 (c : ℕ) :
    comps ((List.range (2 ^ c)).flatMap (fun k =>
      ((List.range k).flatMap (fun j =>
        [(dig4 c j 0 (bitrev c k), dig4 c k 0 (bitrev c j)),
         (dig4 c j 1 (bitrev c k), dig4 c k 2 (bitrev c j)),
         (dig4 c j 2 (bitrev c k), dig4 c k 1 (bitrev c j)),
         (dig4 c j 3 (bitrev c k), dig4 c k 3 (bitrev c j))]))
      ++ [(dig4 c k 1 (bitrev c k), dig4 c k 2 (bitrev c k))]))
    = (List.range (2 ^ c)).flatMap (comps4 c) := by
  rw [comps, List.flatMap_assoc]
  apply flatMap_congr
  intro k _
  rw [List.flatMap_append, List.flatMap_assoc, comps4]
  congr 1

theorem pairsDig4_orb (c : ℕ) :
    ∀ p ∈ (List.range (2 ^ c)).flatMap (fun k =>
      ((List.range k).flatMap (fun j =>
        [(dig4 c j 0 (bitrev c k), dig4 c k 0 (bitrev c j)),
         (dig4 c j 1 (bitrev c k), dig4 c k 2 (bitrev c j)),
         (dig4 c j 2 (bitrev c k), dig4 c k 1 (bitrev c j)),
         (dig4 c j 3 (bitrev c k), dig4 c k 3 (bitrev c j))]))
      ++ [(dig4 c k 1 (bitrev c k), dig4 c k 2 (bitrev c k))]),
      sigmaN (2 * c + 2) p.1 = p.2 := by
  intro p hp
  obtain ⟨k, hk, hp⟩ := List.mem_flatMap.mp hp
  have hk' : k < 2 ^ c := List.mem_range.mp hk
  rcases List.mem_append.mp hp with hp | hp
  · obtain ⟨j, hj, hp⟩ := List.mem_flatMap.mp hp
    have hj' : j < k := List.mem_range.mp hj
    simp only [List.mem_cons, List.not_mem_nil, or_false] at hp
    rcases hp with rfl|rfl|rfl|rfl
    · dsimp only
      rw [sigma_dig4 c (by omega) (by omega) hk', show bitrev 2 0 = 0 from by decide]
    · dsimp only
      rw [sigma_dig4 c (by omega) (by omega) hk', show bitrev 2 1 = 2 from by decide]
    · dsimp only
      rw [sigma_dig4 c (by omega) (by omega) hk', show bitrev 2 2 = 1 from by decide]
    · dsimp only
      rw [sigma_dig4 c (by omega) (by omega) hk', show bitrev 2 3 = 3 from by decide]
  · simp only [List.mem_cons, List.not_mem_nil, or_false] at hp
    subst hp
    dsimp only
    rw [sigma_dig4 c hk' (by omega) hk', show bitrev 2 1 = 2 from by decide]

theorem coverage4 (c : ℕ) {t : ℕ} (ht : t < 2 ^ (2 * c + 2))
    (hmoved : bitrev (2 * c + 2) t ≠ t) :
    t ∈ (List.range (2 ^ c)).flatMap (comps4 c) := by
  obtain ⟨j, ρ, h, hj, hρ, hh, rfl⟩ := dig4_surj c t ht
  have hkb : bitrev c h < 2 ^ c := bitrev_lt c h
  have hhk : bitrev c (bitrev c h) = h := bitrev_bitrev c h hh
  rw [bitrev_dig4 c hj hρ hh] at hmoved
  rcases lt_trichotomy j (bitrev c h) with hlt | heq | hgt
  · refine List.mem_flatMap.mpr ⟨bitrev c h, List.mem_range.mpr hkb, ?_⟩
    rw [comps4]
    apply List.mem_append_left
    refine List.mem_flatMap.mpr ⟨j, List.mem_range.mpr hlt, ?_⟩
    rw [hhk]
    rcases (by omega : ρ = 0 ∨ ρ = 1 ∨ ρ = 2 ∨ ρ = 3) with rfl|rfl|rfl|rfl <;> simp
  · refine List.mem_flatMap.mpr ⟨bitrev c h, List.mem_range.mpr hkb, ?_⟩
    rw [comps4]
    apply List.mem_append_right
    have hbj : bitrev c j = h := by
      rw [heq, hhk]
    rcases (by omega : ρ = 0 ∨ ρ = 1 ∨ ρ = 2 ∨ ρ = 3) with rfl|rfl|rfl|rfl
    · exfalso
      apply hmoved
      rw [show bitrev 2 0 = 0 from by decide, hbj, ← heq]
    · rw [hhk, ← heq]
      simp
    · rw [hhk, ← heq]
      simp
    · exfalso
      apply hmoved
      rw [show bitrev 2 3 = 3 from by decide, hbj, ← heq]
  · refine List.mem_flatMap.mpr ⟨j, List.mem_range.mpr hj, ?_⟩
    rw [comps4]
    apply List.mem_append_left
    refine List.mem_flatMap.mpr ⟨bitrev c h, List.mem_range.mpr hgt, ?_⟩
    rw [hhk]
    rcases (by omega : ρ = 0 ∨ ρ = 1 ∨ ρ = 2 ∨ ρ = 3) with rfl|rfl|rfl|rfl <;> simp

theorem reindexIP_even (c : ℕ) (x : ℕ → ℂ) (t : ℕ) :
    reindexIP (2 ^ (2 * c + 2)) x t = x (sigmaN (2 * c + 2) t) := by
  rw [reindexIP]
  simp only [pattern_even c, ispow4_even c, if_pos, List.length_map, List.length_range]
  rw [pairs4_map_eq c]
  rw [foldSwaps_eval (sigmaN (2 * c + 2)) (sigmaN_involutive _) _ x t (pairsDig4_orb c)
    (by rw [comps_eq_flatMap_comps4 c]; exact flatMap_comps4_nodup c)]
  rw [comps_eq_flatMap_comps4 c]
  by_cases hmem : t ∈ (List.range (2 ^ c)).flatMap (comps4 c)
  · rw [if_pos hmem]
  · rw [if_neg hmem]
    by_cases ht : t < 2 ^ (2 * c + 2)
    · by_cases hmv : bitrev (2 * c + 2) t = t
      · rw [sigmaN_lt _ _ ht, hmv]
      · exact absurd (coverage4 c ht hmv) hmem
    · rw [sigmaN, if_neg ht]

end FFT

namespace FFT

/-! ### Combinatorics of the non-`ispow4` swap list -/

/-- The buffer positions touched by block `k` of the non-`ispow4` in-place
reindex, in digit form. -/
def comps2 (c k : ℕ) : List ℕ :=
  (List.range k).flatMap (fun j =>
    [dig2 c j 0 (bitrev c k), dig2 c k 0 (bitrev c j),
     dig2 c j 1 (bitrev c k), dig2 c k 1 (bitrev c j)])

theorem nodup_map_dig2 (c : ℕ) (TL : List (ℕ × ℕ × ℕ))
    (hb : ∀ t ∈ TL, t.1 < 2 ^ c ∧ t.2.1 < 2) (hnd : TL.Nodup) :
    (TL.map (fun t => dig2 c t.1 t.2.1 t.2.2)).Nodup := by
  refine hnd.map_on ?_
  intro t ht t' ht' he
  have h := dig2_inj c (hb t ht).1 (hb t ht).2 (hb t' ht').1 (hb t' ht').2 he
  rw [Prod.ext_iff, Prod.ext_iff]
  exact ⟨h.1, h.2.1, h.2.2⟩

theorem sigma_dig2 (c : ℕ) {j ρ k : ℕ} (hj : j < 2 ^ c) (hρ : ρ < 2) (hk : k < 2 ^ c) :
    sigmaN (2 * c + 1) (dig2 c j ρ (bitrev c k)) = dig2 c k ρ (bitrev c j) := by
  rw [sigmaN_lt _ _ (dig2_lt c hj hρ (bitrev_lt c k)),
    bitrev_dig2 c hj hρ (bitrev_lt c k), bitrev_bitrev c k hk]

theorem comps2_eq_map (c k j : ℕ) :
    ([dig2 c j 0 (bitrev c k), dig2 c k 0 (bitrev c j),
      dig2 c j 1 (bitrev c k), dig2 c k 1 (bitrev c j)] : List ℕ)
    = ([(j, 0, bitrev c k), (k, 0, bitrev c j), (j, 1, bitrev c k), (k, 1, bitrev c j)]
        : List (ℕ × ℕ × ℕ)).map (fun t => dig2 c t.1 t.2.1 t.2.2) := rfl

theorem comps2_nodup (c : ℕ) {k : ℕ} (hk : k < 2 ^ c) : (comps2 c k).Nodup := by
  have hb12 : ∀ a b : ℕ, a < 2 ^ c → b < 2 ^ c → bitrev c a = bitrev c b → a = b :=
    fun a b ha hb h => bitrev_inj c ha hb h
  rw [comps2, List.nodup_flatMap]
  constructor
  · intro j hj
    have hj' : j < k := List.mem_range.mp hj
    rw [comps2_eq_map]
    apply nodup_map_dig2
    · intro t ht
      simp only [List.mem_cons, List.not_mem_nil, or_false] at ht
      rcases ht with rfl|rfl|rfl|rfl <;> dsimp only <;> omega
    · simp only [List.nodup_cons, List.mem_cons, List.not_mem_nil, or_false, List.nodup_nil,
        and_true, Prod.mk.injEq, not_or, true_and, not_false_iff]
      omega
  · apply List.Pairwise.imp_of_mem ?_ (List.pairwise_lt_range k)
    intro j1 j2 hj1 hj2 hlt
    have hj1' : j1 < k := List.mem_range.mp hj1
    have hj2' : j2 < k := List.mem_range.mp hj2
    intro y hy1 hy2
    simp only [List.mem_cons, List.not_mem_nil, or_false] at hy1 hy2
    rcases hy1 with rfl|rfl|rfl|rfl <;>
      rcases hy2 with he|he|he|he <;>
      · have h3 := dig2_inj c (by omega) (by omega) (by omega) (by omega) he
        rcases h3 with ⟨e1, e2, e3⟩
        first
          | omega
          | (have h5 := hb12 j1 j2 (by omega) (by omega) e3; omega)
          | (have h5 := hb12 j1 k (by omega) (by omega) e3; omega)
          | (have h5 := hb12 k j2 (by omega) (by omega) e3; omega)

theorem mem_comps2 {c k : ℕ} {y : ℕ} (hy : y ∈ comps2 c k) :
    ∃ j ρ, ρ < 2 ∧ ((j < k ∧ y = dig2 c j ρ (bitrev c k)) ∨ (j < k ∧ y = dig2 c k ρ (bitrev c j))) := by
  rw [comps2] at hy
  obtain ⟨j, hj, hy⟩ := List.mem_flatMap.mp hy
  have hj' : j < k := List.mem_range.mp hj
  simp only [List.mem_cons, List.not_mem_nil, or_false] at hy
  rcases hy with rfl|rfl|rfl|rfl
  · exact ⟨j, 0, by omega, Or.inl ⟨hj', rfl⟩⟩
  · exact ⟨j, 0, by omega, Or.inr ⟨hj', rfl⟩⟩
  · exact ⟨j, 1, by omega, Or.inl ⟨hj', rfl⟩⟩
  · exact ⟨j, 1, by omega, Or.inr ⟨hj', rfl⟩⟩

theorem comps2_bound {c k y : ℕ} (hk : k < 2 ^ c) (hy : y ∈ comps2 c k) :
    y < 2 ^ (2 * c + 1) := by
  obtain ⟨j, ρ, hρ, hcase⟩ := mem_comps2 hy
  rcases hcase with ⟨hj, rfl⟩ | ⟨hj, rfl⟩
  · exact dig2_lt c (by omega) hρ (bitrev_lt c k)
  · exact dig2_lt c hk hρ (bitrev_lt c j)

theorem flatMap_comps2_nodup (c : ℕ) :
    ((List.range' 1 (2 ^ c - 1)).flatMap (comps2 c)).Nodup := by
  rw [List.nodup_flatMap]
  constructor
  · intro k hk
    have hk' : k < 2 ^ c := by
      have := List.mem_range'_1.mp hk
      omega
    exact comps2_nodup c hk'
  · apply List.Pairwise.imp_of_mem ?_ (List.pairwise_lt_range' 1 (2 ^ c - 1))
    intro k1 k2 hk1 hk2 hlt
    have hk1' : k1 < 2 ^ c := by
      have := List.mem_range'_1.mp hk1
      omega
    have hk2' : k2 < 2 ^ c := by
      have := List.mem_range'_1.mp hk2
      omega
    intro y hy1 hy2
    obtain ⟨j1, ρ1, hρ1, hcase1⟩ := mem_comps2 hy1
    obtain ⟨j2, ρ2, hρ2, hcase2⟩ := mem_comps2 hy2
    rcases hcase1 with ⟨hj1, rfl⟩ | ⟨hj1, rfl⟩ <;> rcases hcase2 with ⟨hj2, he⟩ | ⟨hj2, he⟩
    · have h3 := dig2_inj c (by omega) (by omega) (by omega) (by omega) he
      have := bitrev_inj c (by omega : k1 < 2 ^ c) (by omega) h3.2.2
      omega
    · have h3 := dig2_inj c (by omega) (by omega) (by omega) (by omega) he
      omega
    · have h3 := dig2_inj c (by omega) (by omega) (by omega) (by omega) he
      have := bitrev_inj c (by omega : j1 < 2 ^ c) (by omega) h3.2.2
      omega
    · have h3 := dig2_inj c (by omega) (by omega) (by omega) (by omega) he
      omega

theorem comps_eq_flatMap_comps2 (c : ℕ) :
    comps ((List.range' 1 (2 ^ c - 1)).flatMap (fun k =>
      (List.range k).flatMap (fun j =>
        [(dig2 c j 0 (bitrev c k), dig2 c k 0 (bitrev c j)),
         (dig2 c j 1 (bitrev c k), dig2 c k 1 (bitrev c j))])))
    = (List.range' 1 (2 ^ c - 1)).flatMap (comps2 c) := by
  rw [comps, List.flatMap_assoc]
  apply flatMap_congr
  intro k _
  rw [List.flatMap_assoc, comps2]
  apply flatMap_congr
  intro j _
  rfl

theorem pairsDig2_orb (c : ℕ) :
    ∀ p ∈ (List.range' 1 (2 ^ c - 1)).flatMap (fun k =>
      (List.range k).flatMap (fun j =>
        [(dig2 c j 0 (bitrev c k), dig2 c k 0 (bitrev c j)),
         (dig2 c j 1 (bitrev c k), dig2 c k 1 (bitrev c j))])),
      sigmaN (2 * c + 1) p.1 = p.2 := by
  intro p hp
  obtain ⟨k, hk, hp⟩ := List.mem_flatMap.mp hp
  have hk' : k < 2 ^ c := by
    have := List.mem_range'_1.mp hk
    omega
  obtain ⟨j, hj, hp⟩ := List.mem_flatMap.mp hp
  have hj' : j < k := List.mem_range.mp hj
  simp only [List.mem_cons, List.not_mem_nil, or_false] at hp
  rcases hp with rfl|rfl <;>
    · dsimp only
      rw [sigma_dig2 c (by omega) (by omega) hk']

theorem coverage2 (c : ℕ) {t : ℕ} (ht : t < 2 ^ (2 * c + 1))
    (hmoved : bitrev (2 * c + 1) t ≠ t) :
    t ∈ (List.range' 1 (2 ^ c - 1)).flatMap (comps2 c) := by
  obtain ⟨j, ρ, h, hj, hρ, hh, rfl⟩ := dig2_surj c t ht
  have hkb : bitrev c h < 2 ^ c := bitrev_lt c h
  have hhk : bitrev c (bitrev c h) = h := bitrev_bitrev c h hh
  rw [bitrev_dig2 c hj hρ hh] at hmoved
  rcases lt_trichotomy j (bitrev c h) with hlt | heq | hgt
  · refine List.mem_flatMap.mpr ⟨bitrev c h, List.mem_range'_1.mpr ⟨by omega, by omega⟩, ?_⟩
    rw [comps2]
    refine List.mem_flatMap.mpr ⟨j, List.mem_range.mpr hlt, ?_⟩
    rw [hhk]
    rcases (by omega : ρ = 0 ∨ ρ = 1) with rfl|rfl <;> simp
  · exfalso
    apply hmoved
    have hbj : bitrev c j = h := by
      rw [heq, hhk]
    rw [hbj, ← heq]
  · refine List.mem_flatMap.mpr ⟨j, List.mem_range'_1.mpr ⟨by omega, by omega⟩, ?_⟩
    rw [comps2]
    refine List.mem_flatMap.mpr ⟨bitrev c h, List.mem_range.mpr hgt, ?_⟩
    rw [hhk]
    rcases (by omega : ρ = 0 ∨ ρ = 1) with rfl|rfl <;> simp

theorem reindexIP_odd (c : ℕ) (x : ℕ → ℂ) (t : ℕ) :
    reindexIP (2 ^ (2 * c + 1)) x t = x (sigmaN (2 * c + 1) t) := by
  rw [reindexIP]
  simp only [pattern_odd c, ispow4_odd c, List.length_map, List.length_range, Bool.false_eq_true,
    if_false]
  rw [pairs2_map_eq c]
  rw [foldSwaps_eval (sigmaN (2 * c + 1)) (sigmaN_involutive _) _ x t (pairsDig2_orb c)
    (by rw [comps_eq_flatMap_comps2 c]; exact flatMap_comps2_nodup c)]
  rw [comps_eq_flatMap_comps2 c]
  by_cases hmem : t ∈ (List.range' 1 (2 ^ c - 1)).flatMap (comps2 c)
  · rw [if_pos hmem]
  · rw [if_neg hmem]
    by_cases ht : t < 2 ^ (2 * c + 1)
    · by_cases hmv : bitrev (2 * c + 1) t = t
      · rw [sigmaN_lt _ _ ht, hmv]
      · exact absurd (coverage2 c ht hmv) hmem
    · rw [sigmaN, if_neg ht]

theorem reindexIP_pow (b : ℕ) (hb : 1 ≤ b) (x : ℕ → ℂ) (t : ℕ) :
    reindexIP (2 ^ b) x t = x (sigmaN b t) := by
  obtain ⟨c, hc⟩ : ∃ c, b = 2 * c + 1 ∨ b = 2 * c + 2 := ⟨(b - 1) / 2, by omega⟩
  rcases hc with rfl | rfl
  · exact reindexIP_odd c x t
  · exact reindexIP_even c x t

end FFT

namespace FFT

/-! ### The out-of-place assignment lists in digit form -/

theorem asgs4_map_eq (c : ℕ) :
    asgs4 ((List.range (2 ^ c)).map (bitrev (2 * c + 2))) (2 ^ c)
      = (List.range (2 ^ c)).flatMap (fun k =>
          ((List.range k).flatMap (fun j =>
            [(dig4 c j 0 (bitrev c k), dig4 c k 0 (bitrev c j)),
             (dig4 c k 0 (bitrev c j), dig4 c j 0 (bitrev c k)),
             (dig4 c j 1 (bitrev c k), dig4 c k 2 (bitrev c j)),
             (dig4 c k 2 (bitrev c j), dig4 c j 1 (bitrev c k)),
             (dig4 c j 2 (bitrev c k), dig4 c k 1 (bitrev c j)),
             (dig4 c k 1 (bitrev c j), dig4 c j 2 (bitrev c k)),
             (dig4 c j 3 (bitrev c k), dig4 c k 3 (bitrev c j)),
             (dig4 c k 3 (bitrev c j), dig4 c j 3 (bitrev c k))]))
          ++ [(dig4 c k 0 (bitrev c k), dig4 c k 0 (bitrev c k)),
              (dig4 c k 1 (bitrev c k), dig4 c k 2 (bitrev c k)),
              (dig4 c k 2 (bitrev c k), dig4 c k 1 (bitrev c k)),
              (dig4 c k 3 (bitrev c k), dig4 c k 3 (bitrev c k))]) := by
  rw [asgs4]
  apply flatMap_congr
  intro k hk
  have hk' : k < 2 ^ c := List.mem_range.mp hk
  have hpk : (((List.range (2 ^ c)).map (bitrev (2 * c + 2))).getD k 0)
      = 2 ^ (c + 2) * bitrev c k := by
    rw [getD_map_range _ _ _ hk', bitrev_high c (2 * c + 2) k (by omega) hk',
      show 2 * c + 2 - c = c + 2 from by omega]
  congr 1
  · apply flatMap_congr
    intro j hj
    have hj' : j < 2 ^ c := by
      have := List.mem_range.mp hj
      omega
    have hpj : (((List.range (2 ^ c)).map (bitrev (2 * c + 2))).getD j 0)
        = 2 ^ (c + 2) * bitrev c j := by
      rw [getD_map_range _ _ _ hj', bitrev_high c (2 * c + 2) j (by omega) hj',
        show 2 * c + 2 - c = c + 2 from by omega]
    rw [hpk, hpj]
    simp only [dig4, Prod.mk.injEq, List.cons.injEq, and_true, List.nil_eq]
    omega
  · rw [hpk]
    simp only [dig4, Prod.mk.injEq, List.cons.injEq, and_true, List.nil_eq]
    omega

theorem asgs2_map_eq (c : ℕ) :
    asgs2 ((List.range (2 ^ c)).map (bitrev (2 * c + 1))) (2 ^ c)
      = [(0, 0), (2 ^ c, 2 ^ c)] ++
        (List.range' 1 (2 ^ c - 1)).flatMap (fun k =>
          ((List.range k).flatMap (fun j =>
            [(dig2 c j 0 (bitrev c k), dig2 c k 0 (bitrev c j)),
             (dig2 c k 0 (bitrev c j), dig2 c j 0 (bitrev c k)),
             (dig2 c j 1 (bitrev c k), dig2 c k 1 (bitrev c j)),
             (dig2 c k 1 (bitrev c j), dig2 c j 1 (bitrev c k))]))
          ++ [(dig2 c k 0 (bitrev c k), dig2 c k 0 (bitrev c k)),
              (dig2 c k 1 (bitrev c k), dig2 c k 1 (bitrev c k))]) := by
  rw [asgs2]
  congr 1
  apply flatMap_congr
  intro k hk
  have hk' : k < 2 ^ c := by
    have := List.mem_range'_1.mp hk
    omega
  have hpk : (((List.range (2 ^ c)).map (bitrev (2 * c + 1))).getD k 0)
      = 2 ^ (c + 1) * bitrev c k := by
    rw [getD_map_range _ _ _ hk', bitrev_high c (2 * c + 1) k (by omega) hk',
      show 2 * c + 1 - c = c + 1 from by omega]
  congr 1
  · apply flatMap_congr
    intro j hj
    have hj' : j < 2 ^ c := by
      have := List.mem_range.mp hj
      omega
    have hpj : (((List.range (2 ^ c)).map (bitrev (2 * c + 1))).getD j 0)
        = 2 ^ (c + 1) * bitrev c j := by
      rw [getD_map_range _ _ _ hj', bitrev_high c (2 * c + 1) j (by omega) hj',
        show 2 * c + 1 - c = c + 1 from by omega]
    rw [hpk, hpj]
    simp only [dig2, Prod.mk.injEq, List.cons.injEq, and_true, List.nil_eq]
    omega
  · rw [hpk]
    simp only [dig2, Prod.mk.injEq, List.cons.injEq, and_true, List.nil_eq]
    omega

end FFT

namespace FFT

theorem asgsDig4_src (c : ℕ) :
    ∀ p ∈ (List.range (2 ^ c)).flatMap (fun k =>
      ((List.range k).flatMap (fun j =>
        [(dig4 c j 0 (bitrev c k), dig4 c k 0 (bitrev c j)),
         (dig4 c k 0 (bitrev c j), dig4 c j 0 (bitrev c k)),
         (dig4 c j 1 (bitrev c k), dig4 c k 2 (bitrev c j)),
         (dig4 c k 2 (bitrev c j), dig4 c j 1 (bitrev c k)),
         (dig4 c j 2 (bitrev c k), dig4 c k 1 (bitrev c j)),
         (dig4 c k 1 (bitrev c j), dig4 c j 2 (bitrev c k)),
         (dig4 c j 3 (bitrev c k), dig4 c k 3 (bitrev c j)),
         (dig4 c k 3 (bitrev c j), dig4 c j 3 (bitrev c k))]))
      ++ [(dig4 c k 0 (bitrev c k), dig4 c k 0 (bitrev c k)),
          (dig4 c k 1 (bitrev c k), dig4 c k 2 (bitrev c k)),
          (dig4 c k 2 (bitrev c k), dig4 c k 1 (bitrev c k)),
          (dig4 c k 3 (bitrev c k), dig4 c k 3 (bitrev c k))]),
      p.2 = sigmaN (2 * c + 2) p.1 := by
  intro p hp
  obtain ⟨k, hk, hp⟩ := List.mem_flatMap.mp hp
  have hk' : k < 2 ^ c := List.mem_range.mp hk
  rcases List.mem_append.mp hp with hp | hp
  · obtain ⟨j, hj, hp⟩ := List.mem_flatMap.mp hp
    have hj' : j < k := List.mem_range.mp hj
    simp only [List.mem_cons, List.not_mem_nil, or_false] at hp
    rcases hp with rfl|rfl|rfl|rfl|rfl|rfl|rfl|rfl <;> dsimp only
    · rw [sigma_dig4 c (by omega) (by omega) hk', show bitrev 2 0 = 0 from by decide]
    · rw [sigma_dig4 c hk' (by omega) (by omega), show bitrev 2 0 = 0 from by decide]
    · rw [sigma_dig4 c (by omega) (by omega) hk', show bitrev 2 1 = 2 from by decide]
    · rw [sigma_dig4 c hk' (by omega) (by omega), show bitrev 2 2 = 1 from by decide]
    · rw [sigma_dig4 c (by omega) (by omega) hk', show bitrev 2 2 = 1 from by decide]
    · rw [sigma_dig4 c hk' (by omega) (by omega), show bitrev 2 1 = 2 from by decide]
    · rw [sigma_dig4 c (by omega) (by omega) hk', show bitrev 2 3 = 3 from by decide]
    · rw [sigma_dig4 c hk' (by omega) (by omega), show bitrev 2 3 = 3 from by decide]
  · simp only [List.mem_cons, List.not_mem_nil, or_false] at hp
    rcases hp with rfl|rfl|rfl|rfl <;> dsimp only
    · rw [sigma_dig4 c hk' (by omega) hk', show bitrev 2 0 = 0 from by decide]
    · rw [sigma_dig4 c hk' (by omega) hk', show bitrev 2 1 = 2 from by decide]
    · rw [sigma_dig4 c hk' (by omega) hk', show bitrev 2 2 = 1 from by decide]
    · rw [sigma_dig4 c hk' (by omega) hk', show bitrev 2 3 = 3 from by decide]

theorem asgsDig4_cover (c : ℕ) {t : ℕ} (ht : t < 2 ^ (2 * c + 2)) :
    t ∈ ((List.range (2 ^ c)).flatMap (fun k =>
      ((List.range k).flatMap (fun j =>
        [(dig4 c j 0 (bitrev c k), dig4 c k 0 (bitrev c j)),
         (dig4 c k 0 (bitrev c j), dig4 c j 0 (bitrev c k)),
         (dig4 c j 1 (bitrev c k), dig4 c k 2 (bitrev c j)),
         (dig4 c k 2 (bitrev c j), dig4 c j 1 (bitrev c k)),
         (dig4 c j 2 (bitrev c k), dig4 c k 1 (bitrev c j)),
         (dig4 c k 1 (bitrev c j), dig4 c j 2 (bitrev c k)),
         (dig4 c j 3 (bitrev c k), dig4 c k 3 (bitrev c j)),
         (dig4 c k 3 (bitrev c j), dig4 c j 3 (bitrev c k))]))
      ++ [(dig4 c k 0 (bitrev c k), dig4 c k 0 (bitrev c k)),
          (dig4 c k 1 (bitrev c k), dig4 c k 2 (bitrev c k)),
          (dig4 c k 2 (bitrev c k), dig4 c k 1 (bitrev c k)),
          (dig4 c k 3 (bitrev c k), dig4 c k 3 (bitrev c k))])).map Prod.fst := by
  rw [List.map_flatMap]
  obtain ⟨j, ρ, h, hj, hρ, hh, rfl⟩ := dig4_surj c t ht
  have hkb : bitrev c h < 2 ^ c := bitrev_lt c h
  have hhk : bitrev c (bitrev c h) = h := bitrev_bitrev c h hh
  rcases lt_trichotomy j (bitrev c h) with hlt | heq | hgt
  · refine List.mem_flatMap.mpr ⟨bitrev c h, List.mem_range.mpr hkb, ?_⟩
    rw [List.map_append, List.map_flatMap]
    apply List.mem_append_left
    refine List.mem_flatMap.mpr ⟨j, List.mem_range.mpr hlt, ?_⟩
    rw [hhk]
    rcases (by omega : ρ = 0 ∨ ρ = 1 ∨ ρ = 2 ∨ ρ = 3) with rfl|rfl|rfl|rfl <;> simp
  · refine List.mem_flatMap.mpr ⟨bitrev c h, List.mem_range.mpr hkb, ?_⟩
    rw [List.map_append, List.map_flatMap]
    apply List.mem_append_right
    rw [hhk, ← heq]
    rcases (by omega : ρ = 0 ∨ ρ = 1 ∨ ρ = 2 ∨ ρ = 3) with rfl|rfl|rfl|rfl <;> simp
  · refine List.mem_flatMap.mpr ⟨j, List.mem_range.mpr hj, ?_⟩
    rw [List.map_append, List.map_flatMap]
    apply List.mem_append_left
    refine List.mem_flatMap.mpr ⟨bitrev c h, List.mem_range.mpr hgt, ?_⟩
    rw [hhk]
    rcases (by omega : ρ = 0 ∨ ρ = 1 ∨ ρ = 2 ∨ ρ = 3) with rfl|rfl|rfl|rfl <;> simp

theorem reindexOOP_even (c : ℕ) (st : Buffers) (t : ℕ) :
    (reindexOOP (2 ^ (2 * c + 2)) st).out t
      = if t < 2 ^ (2 * c + 2) then st.inp (bitrev (2 * c + 2) t) else (reindexOOP (2 ^ (2 * c + 2)) st).out t := by
  by_cases ht : t < 2 ^ (2 * c + 2)
  · rw [if_pos ht, reindexOOP]
    simp only [pattern_even c, ispow4_even c, if_pos, List.length_map, List.length_range]
    rw [asgs4_map_eq c]
    rw [oop_foldl_out (sigmaN (2 * c + 2)) _ st t (asgsDig4_src c)]
    rw [if_pos (asgsDig4_cover c ht), sigmaN_lt _ _ ht]
  · rw [if_neg ht]

end FFT

namespace FFT

theorem asgsDig2_src (c : ℕ) :
    ∀ p ∈ ([((0 : ℕ), (0 : ℕ)), (2 ^ c, 2 ^ c)] ++
      (List.range' 1 (2 ^ c - 1)).flatMap (fun k =>
        ((List.range k).flatMap (fun j =>
          [(dig2 c j 0 (bitrev c k), dig2 c k 0 (bitrev c j)),
           (dig2 c k 0 (bitrev c j), dig2 c j 0 (bitrev c k)),
           (dig2 c j 1 (bitrev c k), dig2 c k 1 (bitrev c j)),
           (dig2 c k 1 (bitrev c j), dig2 c j 1 (bitrev c k))]))
        ++ [(dig2 c k 0 (bitrev c k), dig2 c k 0 (bitrev c k)),
            (dig2 c k 1 (bitrev c k), dig2 c k 1 (bitrev c k))])),
      p.2 = sigmaN (2 * c + 1) p.1 := by
  intro p hp
  rcases List.mem_append.mp hp with hp | hp
  · simp only [List.mem_cons, List.not_mem_nil, or_false] at hp
    have hz : dig2 c 0 0 (bitrev c 0) = 0 := by
      simp [dig2, bitrev_zero_right]
    have hm : dig2 c 0 1 (bitrev c 0) = 2 ^ c := by
      simp [dig2, bitrev_zero_right]
    have h0 : (0 : ℕ) < 2 ^ c := Nat.pos_pow_of_pos c (by norm_num)
    rcases hp with rfl|rfl <;> dsimp only
    · rw [← hz, sigma_dig2 c h0 (by omega) h0]
    · rw [← hm, sigma_dig2 c h0 (by omega) h0]
  · obtain ⟨k, hk, hp⟩ := List.mem_flatMap.mp hp
    have hk' : k < 2 ^ c := by
      have := List.mem_range'_1.mp hk
      omega
    rcases List.mem_append.mp hp with hp | hp
    · obtain ⟨j, hj, hp⟩ := List.mem_flatMap.mp hp
      have hj' : j < k := List.mem_range.mp hj
      simp only [List.mem_cons, List.not_mem_nil, or_false] at hp
      rcases hp with rfl|rfl|rfl|rfl <;> dsimp only
      · rw [sigma_dig2 c (by omega) (by omega) hk']
      · rw [sigma_dig2 c hk' (by omega) (by omega)]
      · rw [sigma_dig2 c (by omega) (by omega) hk']
      · rw [sigma_dig2 c hk' (by omega) (by omega)]
    · simp only [List.mem_cons, List.not_mem_nil, or_false] at hp
      rcases hp with rfl|rfl <;> dsimp only
      · rw [sigma_dig2 c hk' (by omega) hk']
      · rw [sigma_dig2 c hk' (by omega) hk']

theorem asgsDig2_cover (c : ℕ) {t : ℕ} (ht : t < 2 ^ (2 * c + 1)) :
    t ∈ (([((0 : ℕ), (0 : ℕ)), (2 ^ c, 2 ^ c)] ++
      (List.range' 1 (2 ^ c - 1)).flatMap (fun k =>
        ((List.range k).flatMap (fun j =>
          [(dig2 c j 0 (bitrev c k), dig2 c k 0 (bitrev c j)),
           (dig2 c k 0 (bitrev c j), dig2 c j 0 (bitrev c k)),
           (dig2 c j 1 (bitrev c k), dig2 c k 1 (bitrev c j)),
           (dig2 c k 1 (bitrev c j), dig2 c j 1 (bitrev c k))]))
        ++ [(dig2 c k 0 (bitrev c k), dig2 c k 0 (bitrev c k)),
            (dig2 c k 1 (bitrev c k), dig2 c k 1 (bitrev c k))]))).map Prod.fst := by
  rw [List.map_append]
  obtain ⟨j, ρ, h, hj, hρ, hh, rfl⟩ := dig2_surj c t ht
  have hkb : bitrev c h < 2 ^ c := bitrev_lt c h
  have hhk : bitrev c (bitrev c h) = h := bitrev_bitrev c h hh
  rcases lt_trichotomy j (bitrev c h) with hlt | heq | hgt
  · apply List.mem_append_right
    rw [List.map_flatMap]
    refine List.mem_flatMap.mpr ⟨bitrev c h, List.mem_range'_1.mpr ⟨by omega, by omega⟩, ?_⟩
    rw [List.map_append, List.map_flatMap]
    apply List.mem_append_left
    refine List.mem_flatMap.mpr ⟨j, List.mem_range.mpr hlt, ?_⟩
    rw [hhk]
    rcases (by omega : ρ = 0 ∨ ρ = 1) with rfl|rfl <;> simp
  · by_cases hk0 : bitrev c h = 0
    · apply List.mem_append_left
      have hh0 : h = 0 := by
        rw [← hhk, hk0, bitrev_zero_right]
      subst hh0
      rw [heq, hk0]
      rcases (by omega : ρ = 0 ∨ ρ = 1) with rfl|rfl <;> simp [dig2, bitrev_zero_right]
    · apply List.mem_append_right
      rw [List.map_flatMap]
      refine List.mem_flatMap.mpr ⟨bitrev c h, List.mem_range'_1.mpr ⟨by omega, by omega⟩, ?_⟩
      rw [List.map_append, List.map_flatMap]
      apply List.mem_append_right
      rw [hhk, ← heq]
      rcases (by omega : ρ = 0 ∨ ρ = 1) with rfl|rfl <;> simp
  · apply List.mem_append_right
    rw [List.map_flatMap]
    refine List.mem_flatMap.mpr ⟨j, List.mem_range'_1.mpr ⟨by omega, by omega⟩, ?_⟩
    rw [List.map_append, List.map_flatMap]
    apply List.mem_append_left
    refine List.mem_flatMap.mpr ⟨bitrev c h, List.mem_range.mpr hgt, ?_⟩
    rw [hhk]
    rcases (by omega : ρ = 0 ∨ ρ = 1) with rfl|rfl <;> simp

theorem reindexOOP_odd (c : ℕ) (st : Buffers) (t : ℕ) (ht : t < 2 ^ (2 * c + 1)) :
    (reindexOOP (2 ^ (2 * c + 1)) st).out t = st.inp (bitrev (2 * c + 1) t) := by
  rw [reindexOOP]
  simp only [pattern_odd c, ispow4_odd c, List.length_map, List.length_range, Bool.false_eq_true,
    if_false]
  rw [asgs2_map_eq c]
  rw [oop_foldl_out (sigmaN (2 * c + 1)) _ st t (asgsDig2_src c)]
  rw [if_pos (asgsDig2_cover c ht), sigmaN_lt _ _ ht]

theorem reindexOOP_pow (b : ℕ) (hb : 1 ≤ b) (st : Buffers) (t : ℕ) (ht : t < 2 ^ b) :
    (reindexOOP (2 ^ b) st).out t = st.inp (bitrev b t) := by
  obtain ⟨c, hc⟩ : ∃ c, b = 2 * c + 1 ∨ b = 2 * c + 2 := ⟨(b - 1) / 2, by omega⟩
  rcases hc with rfl | rfl
  · exact reindexOOP_odd c st t ht
  · have h := reindexOOP_even c st t
    rw [if_pos ht] at h
    exact h

theorem reindexOOP_inp (N : ℕ) (st : Buffers) : (reindexOOP N st).inp = st.inp := by
  rw [reindexOOP]
  by_cases h : ispow4 N
  · simp only [h, if_pos]
    exact oop_foldl_inp _ st
  · simp only [h, if_neg, Bool.false_eq_true]
    exact oop_foldl_inp _ st

end FFT

namespace FFT

theorem mix_congr (d : ℤ) :
    ∀ (b : ℕ) (f g : ℕ → ℂ), (∀ i, i < 2 ^ b → f i = g i) →
      ∀ k, k < 2 ^ b → mix d (2 ^ b) f k = mix d (2 ^ b) g k := by
  intro b
  induction b using Nat.strong_induction_on with
  | _ b ih =>
    obtain _ | _ | c := b
    · intro f g hfg k hk
      rw [mix_le_one d _ f (by norm_num), mix_le_one d _ g (by norm_num)]
      exact hfg k hk
    · intro f g hfg k hk
      simp only [Nat.zero_add] at hk ⊢
      have h21 : (2 : ℕ) ^ 1 = 2 := by norm_num
      rw [h21] at hk ⊢
      rw [mix_two, mix_two, hfg 0 (by omega), hfg 1 (by omega)]
      rcases (by omega : k = 0 ∨ k = 1) with rfl | rfl <;> simp
    · intro f g hfg k hk
      have hq0 : 0 < 2 ^ c := Nat.pos_pow_of_pos c (by norm_num)
      have hN : (2 : ℕ) ^ (c + 2) = 4 * 2 ^ c := by
        rw [pow_succ, pow_succ]
        ring
      rw [hN] at hk hfg ⊢
      obtain ⟨r, i, hr, hi, rfl⟩ : ∃ r i, r < 4 ∧ i < 2 ^ c ∧ k = r * 2 ^ c + i := by
        refine ⟨k / 2 ^ c, k % 2 ^ c, ?_, Nat.mod_lt _ hq0, ?_⟩
        · exact (Nat.div_lt_iff_lt_mul hq0).mpr (by omega)
        · have h := Nat.div_add_mod k (2 ^ c)
          rw [Nat.mul_comm] at h
          exact h.symm
      rw [mix_four_eval d (2 ^ c) hq0 f r i hr hi,
        mix_four_eval d (2 ^ c) hq0 g r i hr hi]
      simp only []
      have e0 := ih c (by omega) f g (fun t ht => hfg t (by omega)) i hi
      have e1 := ih c (by omega) (fun s => f (2 ^ c + s)) (fun s => g (2 ^ c + s))
        (fun t ht => hfg (2 ^ c + t) (by omega)) i hi
      have e2 := ih c (by omega) (fun s => f (2 * 2 ^ c + s)) (fun s => g (2 * 2 ^ c + s))
        (fun t ht => hfg (2 * 2 ^ c + t) (by omega)) i hi
      have e3 := ih c (by omega) (fun s => f (3 * 2 ^ c + s)) (fun s => g (3 * 2 ^ c + s))
        (fun t ht => hfg (3 * 2 ^ c + t) (by omega)) i hi
      rw [e0, e1, e2, e3]

end FFT

namespace FFT

/-! ### Orthogonality of the exponential kernel and the round trip -/

theorem dker_eq_one_iff (d : ℤ) (hd : d = 1 ∨ d = -1) (N : ℕ) (hN : 0 < N) (s : ℤ) :
    dker d N s = 1 ↔ (N : ℤ) ∣ s := by
  have hNne : N ≠ 0 := hN.ne'
  have hprim := Complex.isPrimitiveRoot_exp N hNne
  have hz : dker d N s = Complex.exp (2 * (Real.pi : ℂ) * Complex.I / (N : ℂ)) ^ (d * s) := by
    rw [← Complex.exp_int_mul, dker]
    congr 1
    push_cast
    ring
  rw [hz, hprim.zpow_eq_one_iff_dvd]
  rcases hd with rfl | rfl
  · simp
  · rw [show (-1 : ℤ) * s = -s by ring, Int.dvd_neg]

theorem dker_orth (d : ℤ) (hd : d = 1 ∨ d = -1) (N : ℕ) (hN : 0 < N) (s : ℤ) :
    ∑ n ∈ Finset.range N, dker d N ((n : ℤ) * s) = if (N : ℤ) ∣ s then (N : ℂ) else 0 := by
  have hterm : ∀ n : ℕ, dker d N ((n : ℤ) * s) = dker d N s ^ n := by
    intro n
    exact_mod_cast dker_natCast_mul d N n s
  by_cases hdvd : (N : ℤ) ∣ s
  · rw [if_pos hdvd]
    have h1 : dker d N s = 1 := (dker_eq_one_iff d hd N hN s).mpr hdvd
    simp [hterm, h1]
  · rw [if_neg hdvd]
    have h1 : dker d N s ≠ 1 := fun h => hdvd ((dker_eq_one_iff d hd N hN s).mp h)
    have hpow : dker d N s ^ N = 1 := by
      rw [← hterm N, show ((N : ℕ) : ℤ) * s = (N : ℤ) * s by push_cast; ring]
      exact dker_self_mul d N hN.ne' s
    calc ∑ n ∈ Finset.range N, dker d N ((n : ℤ) * s)
        = ∑ n ∈ Finset.range N, dker d N s ^ n :=
          Finset.sum_congr rfl fun n _ => hterm n
      _ = (dker d N s ^ N - 1) / (dker d N s - 1) := geom_sum_eq h1 N
      _ = 0 := by rw [hpow]; simp

theorem dker_neg_d (d : ℤ) (n : ℕ) (t : ℤ) : dker d n t = dker (-d) n (-t) := by
  rw [dker, dker]
  congr 1
  push_cast
  ring

/-- Reindex-then-mix evaluates to the plain (un-reversed) exponential sum:
the bit-reversal permutation exactly undoes the reversal in `mix_correct`. -/
theorem transform_eval (d : ℤ) (hd : d = 1 ∨ d = -1) (b : ℕ) (hb : 1 ≤ b)
    (x : ℕ → ℂ) (k : ℕ) (hk : k < 2 ^ b) :
    mix d (2 ^ b) (reindexIP (2 ^ b) x) k
      = ∑ n ∈ Finset.range (2 ^ b), x n * dker d (2 ^ b) ((k : ℤ) * (n : ℤ)) := by
  rw [mix_correct d hd b _ k hk]
  apply Finset.sum_congr rfl
  intro n hn
  have hn' := Finset.mem_range.mp hn
  rw [reindexIP_pow b hb x (bitrev b n), sigmaN_lt b _ (bitrev_lt b n),
    bitrev_bitrev b n hn']

/-- Composing the two directions of the reindex-then-mix pipeline scales the
input by `2 ^ b` at every in-range position. -/
theorem mix_reindex_round (d : ℤ) (hd : d = 1 ∨ d = -1) (b : ℕ) (hb : 1 ≤ b)
    (x : ℕ → ℂ) (k : ℕ) (hk : k < 2 ^ b) :
    mix (-d) (2 ^ b) (reindexIP (2 ^ b) (mix d (2 ^ b) (reindexIP (2 ^ b) x))) k
      = (2 ^ b : ℂ) * x k := by
  have hN : 0 < 2 ^ b := Nat.pos_pow_of_pos b (by norm_num)
  have hmd : -d = 1 ∨ -d = -1 := by
    rcases hd with rfl | rfl
    · exact Or.inr rfl
    · exact Or.inl rfl
  rw [transform_eval (-d) hmd b hb _ k hk]
  have hsub : ∀ n ∈ Finset.range (2 ^ b),
      mix d (2 ^ b) (reindexIP (2 ^ b) x) n * dker (-d) (2 ^ b) ((k : ℤ) * (n : ℤ))
        = ∑ m ∈ Finset.range (2 ^ b),
            x m * dker (-d) (2 ^ b) ((n : ℤ) * ((k : ℤ) - (m : ℤ))) := by
    intro n hn
    rw [transform_eval d hd b hb x n (Finset.mem_range.mp hn), Finset.sum_mul]
    apply Finset.sum_congr rfl
    intro m _
    rw [dker_neg_d d (2 ^ b) ((n : ℤ) * (m : ℤ)), mul_assoc, ← dker_add]
    congr 2
    ring
  rw [Finset.sum_congr rfl hsub, Finset.sum_comm]
  have hinner : ∀ m ∈ Finset.range (2 ^ b),
      ∑ n ∈ Finset.range (2 ^ b), x m * dker (-d) (2 ^ b) ((n : ℤ) * ((k : ℤ) - (m : ℤ)))
        = x m * (if ((2 ^ b : ℕ) : ℤ) ∣ ((k : ℤ) - (m : ℤ)) then ((2 ^ b : ℕ) : ℂ) else 0) := by
    intro m _
    rw [← Finset.mul_sum, dker_orth (-d) hmd (2 ^ b) hN ((k : ℤ) - (m : ℤ))]
  rw [Finset.sum_congr rfl hinner]
  rw [Finset.sum_eq_single k]
  · rw [if_pos (by simp), mul_comm]
    push_cast
    ring
  · intro m hm hmk
    have hm' := Finset.mem_range.mp hm
    rw [if_neg, mul_zero]
    intro hdvd
    have habs : |(k : ℤ) - (m : ℤ)| < ((2 ^ b : ℕ) : ℤ) := by
      have hkZ : (k : ℤ) < ((2 ^ b : ℕ) : ℤ) := by exact_mod_cast hk
      have hmZ : (m : ℤ) < ((2 ^ b : ℕ) : ℤ) := by exact_mod_cast hm'
      rw [abs_lt]
      omega
    have := Int.eq_zero_of_abs_lt_dvd hdvd habs
    omega
  · intro hk'
    exact absurd (Finset.mem_range.mpr hk) hk'

end FFT

namespace FFT

/-! ### Safety facts: distinct pattern entries, in-range indices, frame -/

theorem pattern_length_even (c : ℕ) : (pattern (2 ^ (2 * c + 2))).length = 2 ^ c := by
  rw [pattern_even c, List.length_map, List.length_range]

theorem pattern_length_odd (c : ℕ) : (pattern (2 ^ (2 * c + 1))).length = 2 ^ c := by
  rw [pattern_odd c, List.length_map, List.length_range]

theorem pattern_nodup (b : ℕ) (hb : 1 ≤ b) : (pattern (2 ^ b)).Nodup := by
  obtain ⟨c, hc⟩ : ∃ c, b = 2 * c + 1 ∨ b = 2 * c + 2 := ⟨(b - 1) / 2, by omega⟩
  have hle : ∀ x : ℕ, x < 2 ^ c → x < 2 ^ b := by
    intro x hx
    have : (2 : ℕ) ^ c ≤ 2 ^ b := Nat.pow_le_pow_right (by norm_num) (by omega)
    omega
  rcases hc with rfl | rfl
  · rw [pattern_odd c]
    refine List.Nodup.map_on ?_ (List.nodup_range _)
    intro x hx y hy hxy
    exact bitrev_inj (2 * c + 1) (hle x (List.mem_range.mp hx)) (hle y (List.mem_range.mp hy)) hxy
  · rw [pattern_even c]
    refine List.Nodup.map_on ?_ (List.nodup_range _)
    intro x hx y hy hxy
    exact bitrev_inj (2 * c + 2) (hle x (List.mem_range.mp hx)) (hle y (List.mem_range.mp hy)) hxy

theorem pairs4_bound (c : ℕ) :
    ∀ p ∈ pairs4 (pattern (2 ^ (2 * c + 2))) ((pattern (2 ^ (2 * c + 2))).length),
      p.1 < 2 ^ (2 * c + 2) ∧ p.2 < 2 ^ (2 * c + 2) := by
  intro p hp
  rw [pattern_length_even c, pattern_even c, pairs4_map_eq c] at hp
  obtain ⟨k, hk, hp⟩ := List.mem_flatMap.mp hp
  have hk' : k < 2 ^ c := List.mem_range.mp hk
  have hbk : bitrev c k < 2 ^ c := bitrev_lt c k
  rcases List.mem_append.mp hp with hp | hp
  · obtain ⟨j, hj, hp⟩ := List.mem_flatMap.mp hp
    have hj' : j < 2 ^ c := by
      have := List.mem_range.mp hj
      omega
    have hbj : bitrev c j < 2 ^ c := bitrev_lt c j
    simp only [List.mem_cons, List.not_mem_nil, or_false] at hp
    rcases hp with rfl | rfl | rfl | rfl <;>
      exact ⟨dig4_lt c (by omega) (by omega) (by omega),
        dig4_lt c (by omega) (by omega) (by omega)⟩
  · simp only [List.mem_cons, List.not_mem_nil, or_false] at hp
    subst hp
    exact ⟨dig4_lt c (by omega) (by omega) (by omega),
      dig4_lt c (by omega) (by omega) (by omega)⟩

theorem pairs2_bound (c : ℕ) :
    ∀ p ∈ pairs2 (pattern (2 ^ (2 * c + 1))) ((pattern (2 ^ (2 * c + 1))).length),
      p.1 < 2 ^ (2 * c + 1) ∧ p.2 < 2 ^ (2 * c + 1) := by
  intro p hp
  rw [pattern_length_odd c, pattern_odd c, pairs2_map_eq c] at hp
  obtain ⟨k, hk, hp⟩ := List.mem_flatMap.mp hp
  have hk' : k < 2 ^ c := by
    have := List.mem_range'_1.mp hk
    omega
  have hbk : bitrev c k < 2 ^ c := bitrev_lt c k
  obtain ⟨j, hj, hp⟩ := List.mem_flatMap.mp hp
  have hj' : j < 2 ^ c := by
    have := List.mem_range.mp hj
    omega
  have hbj : bitrev c j < 2 ^ c := bitrev_lt c j
  simp only [List.mem_cons, List.not_mem_nil, or_false] at hp
  rcases hp with rfl | rfl <;>
    exact ⟨dig2_lt c (by omega) (by omega) (by omega),
      dig2_lt c (by omega) (by omega) (by omega)⟩

theorem asgs4_bound (c : ℕ) :
    ∀ p ∈ asgs4 (pattern (2 ^ (2 * c + 2))) ((pattern (2 ^ (2 * c + 2))).length),
      p.1 < 2 ^ (2 * c + 2) ∧ p.2 < 2 ^ (2 * c + 2) := by
  intro p hp
  rw [pattern_length_even c, pattern_even c, asgs4_map_eq c] at hp
  obtain ⟨k, hk, hp⟩ := List.mem_flatMap.mp hp
  have hk' : k < 2 ^ c := List.mem_range.mp hk
  have hbk : bitrev c k < 2 ^ c := bitrev_lt c k
  rcases List.mem_append.mp hp with hp | hp
  · obtain ⟨j, hj, hp⟩ := List.mem_flatMap.mp hp
    have hj' : j < 2 ^ c := by
      have := List.mem_range.mp hj
      omega
    have hbj : bitrev c j < 2 ^ c := bitrev_lt c j
    simp only [List.mem_cons, List.not_mem_nil, or_false] at hp
    rcases hp with rfl | rfl | rfl | rfl | rfl | rfl | rfl | rfl <;>
      exact ⟨dig4_lt c (by omega) (by omega) (by omega),
        dig4_lt c (by omega) (by omega) (by omega)⟩
  · simp only [List.mem_cons, List.not_mem_nil, or_false] at hp
    rcases hp with rfl | rfl | rfl | rfl <;>
      exact ⟨dig4_lt c (by omega) (by omega) (by omega),
        dig4_lt c (by omega) (by omega) (by omega)⟩

theorem asgs2_bound (c : ℕ) :
    ∀ p ∈ asgs2 (pattern (2 ^ (2 * c + 1))) ((pattern (2 ^ (2 * c + 1))).length),
      p.1 < 2 ^ (2 * c + 1) ∧ p.2 < 2 ^ (2 * c + 1) := by
  intro p hp
  rw [pattern_length_odd c, pattern_odd c, asgs2_map_eq c] at hp
  have hc0 : (0 : ℕ) < 2 ^ c := Nat.pos_pow_of_pos c (by norm_num)
  have hcb : (2 : ℕ) ^ c < 2 ^ (2 * c + 1) := Nat.pow_lt_pow_right (by norm_num) (by omega)
  rcases List.mem_append.mp hp with hp | hp
  · simp only [List.mem_cons, List.not_mem_nil, or_false] at hp
    rcases hp with rfl | rfl <;> exact ⟨by omega, by omega⟩
  · obtain ⟨k, hk, hp⟩ := List.mem_flatMap.mp hp
    have hk' : k < 2 ^ c := by
      have := List.mem_range'_1.mp hk
      omega
    have hbk : bitrev c k < 2 ^ c := bitrev_lt c k
    rcases List.mem_append.mp hp with hp | hp
    · obtain ⟨j, hj, hp⟩ := List.mem_flatMap.mp hp
      have hj' : j < 2 ^ c := by
        have := List.mem_range.mp hj
        omega
      have hbj : bitrev c j < 2 ^ c := bitrev_lt c j
      simp only [List.mem_cons, List.not_mem_nil, or_false] at hp
      rcases hp with rfl | rfl | rfl | rfl <;>
        exact ⟨dig2_lt c (by omega) (by omega) (by omega),
          dig2_lt c (by omega) (by omega) (by omega)⟩
    · simp only [List.mem_cons, List.not_mem_nil, or_false] at hp
      rcases hp with rfl | rfl <;>
        exact ⟨dig2_lt c (by omega) (by omega) (by omega),
          dig2_lt c (by omega) (by omega) (by omega)⟩

theorem sigmaN_ge (b t : ℕ) (ht : 2 ^ b ≤ t) : sigmaN b t = t := by
  rw [sigmaN, if_neg (by omega)]

theorem reindexIP_untouched (b : ℕ) (hb : 1 ≤ b) (x : ℕ → ℂ) (t : ℕ) (ht : 2 ^ b ≤ t) :
    reindexIP (2 ^ b) x t = x t := by
  rw [reindexIP_pow b hb x t, sigmaN_ge b t ht]

end FFT

namespace FFT

/-! ### Structure projections of the out-of-place transforms -/

theorem dftOOP_out (N : ℕ) (st : Buffers) :
    (dftOOP N st).out = mix (-1) N (reindexOOP N st).out := rfl

theorem idftOOP_out (N : ℕ) (st : Buffers) :
    (idftOOP N st).out = mix 1 N (reindexOOP N st).out := rfl

theorem dftOOP_inp (N : ℕ) (st : Buffers) :
    (dftOOP N st).inp = (reindexOOP N st).inp := rfl

theorem idftOOP_inp (N : ℕ) (st : Buffers) :
    (idftOOP N st).inp = (reindexOOP N st).inp := rfl

end FFT

namespace FFT

/-! ### The claims -/

/-- C1: for every power-of-two length `N = 2 ^ b > 1` and every input sequence
`x`, the in-place `dft` computes the standard unnormalized DFT
(output `k` is the sum of `x n · e^(-2 π i k n / N)`), and `idft` computes the
corresponding unnormalized inverse-sign sum (angle sign `+1`). -/
theorem c1_dft_idft_formula (b : ℕ) (hb : 1 ≤ b) (x : ℕ → ℂ) (k : ℕ) (hk : k < 2 ^ b) :
    dft (2 ^ b) x k
      = ∑ n ∈ Finset.range (2 ^ b),
          x n * Complex.exp (-(2 * (Real.pi : ℂ) * (k : ℂ) * (n : ℂ)
            / ((2 ^ b : ℕ) : ℂ)) * Complex.I)
    ∧ idft (2 ^ b) x k
      = ∑ n ∈ Finset.range (2 ^ b),
          x n * Complex.exp (2 * (Real.pi : ℂ) * (k : ℂ) * (n : ℂ)
            / ((2 ^ b : ℕ) : ℂ) * Complex.I) := by
  constructor
  · rw [dft, transform_eval (-1) (Or.inr rfl) b hb x k hk]
    apply Finset.sum_congr rfl
    intro n _
    congr 1
    rw [dker]
    congr 1
    push_cast
    ring
  · rw [idft, transform_eval 1 (Or.inl rfl) b hb x k hk]
    apply Finset.sum_congr rfl
    intro n _
    congr 1
    rw [dker]
    congr 1
    push_cast
    ring

/-- Closed instance of the C1 theorem at `b = 1`, `x = 1`, `k = 0`. -/
theorem c1_dft_idft_formula_witness :
    dft (2 ^ 1) (fun _ => (1 : ℂ)) 0
      = ∑ n ∈ Finset.range (2 ^ 1),
          (fun _ => (1 : ℂ)) n * Complex.exp (-(2 * (Real.pi : ℂ) * ((0 : ℕ) : ℂ) * (n : ℂ)
            / ((2 ^ 1 : ℕ) : ℂ)) * Complex.I)
    ∧ idft (2 ^ 1) (fun _ => (1 : ℂ)) 0
      = ∑ n ∈ Finset.range (2 ^ 1),
          (fun _ => (1 : ℂ)) n * Complex.exp (2 * (Real.pi : ℂ) * ((0 : ℕ) : ℂ) * (n : ℂ)
            / ((2 ^ 1 : ℕ) : ℂ) * Complex.I) :=
  c1_dft_idft_formula 1 (by norm_num) (fun _ => (1 : ℂ)) 0 (by norm_num)

/-- C2: the forward and inverse transforms compose, in either order, to
`N` times the original sequence at every in-range position (no
normalization in either direction). -/
theorem c2_round_trip (b : ℕ) (hb : 1 ≤ b) (x : ℕ → ℂ) (k : ℕ) (hk : k < 2 ^ b) :
    idft (2 ^ b) (dft (2 ^ b) x) k = ((2 ^ b : ℕ) : ℂ) * x k
    ∧ dft (2 ^ b) (idft (2 ^ b) x) k = ((2 ^ b : ℕ) : ℂ) * x k := by
  constructor
  · have h := mix_reindex_round (-1) (Or.inr rfl) b hb x k hk
    rw [show (-(-1 : ℤ)) = 1 from by norm_num] at h
    rw [idft, dft, h]
    push_cast
    ring
  · have h := mix_reindex_round 1 (Or.inl rfl) b hb x k hk
    rw [dft, idft, h]
    push_cast
    ring

/-- Closed instance of the C2 theorem at `b = 1`, `x = 1`, `k = 1`. -/
theorem c2_round_trip_witness :
    idft (2 ^ 1) (dft (2 ^ 1) (fun _ => (1 : ℂ))) 1 = ((2 ^ 1 : ℕ) : ℂ) * (fun _ => (1 : ℂ)) 1
    ∧ dft (2 ^ 1) (idft (2 ^ 1) (fun _ => (1 : ℂ))) 1 = ((2 ^ 1 : ℕ) : ℂ) * (fun _ => (1 : ℂ)) 1 :=
  c2_round_trip 1 (by norm_num) (fun _ => (1 : ℂ)) 1 (by norm_num)

/-- The forward rotation does not map `(0, 1)` to `(-1, 0)`: the claimed
assignment of rotation directions is swapped relative to the code, where the
forward (`D = -1`) branch of `direction` returns `(imag, -real)`. -/
theorem c3_counterexample : direction (-1) ⟨0, 1⟩ ≠ (⟨-1, 0⟩ : ℂ) := by
  rw [direction, if_neg (by norm_num)]
  intro h
  have h1 : (1 : ℝ) = -1 := congrArg Complex.re h
  norm_num at h1

/-- C3 (corrected): the 90-degree rotation maps `(x, y)` to `(y, -x)` when the
direction is Forward (`D = -1`, as used by `dft`), and to `(-y, x)` when the
direction is Inverse (`D = 1`, as used by `idft`). -/
theorem c3_rotate90 (z : ℂ) :
    direction (-1) z = ⟨z.im, -z.re⟩ ∧ direction 1 z = ⟨-z.im, z.re⟩ := by
  constructor
  · rw [direction, if_neg (by norm_num)]
  · rw [direction, if_pos (by norm_num)]

/-- For `N = 8` (a power of two but not of four) the bit-reversal pattern has
length `2`, not `N / 2 = 4` as claimed. -/
theorem c4_counterexample :
    ispow4 (2 ^ 3) = false ∧ (pattern (2 ^ 3)).length ≠ 2 ^ 3 / 2 := by
  constructor
  · have h := ispow4_odd 1
    norm_num at h
    convert h using 2
  · have h := pattern_length_odd 1
    norm_num at h
    rw [show (2 : ℕ) ^ 3 = 8 from by norm_num, h]
    norm_num

/-- C4 (corrected): for every power-of-two `N = 2 ^ b > 1`, the length `M` of
the bit-reversal pattern satisfies `4 M² = N` when `N` is a power of four and
`2 M² = N` otherwise (so `M = √(N/4)` resp. `√(N/2)`, not `N/4` resp. `N/2`). -/
theorem c4_pattern_length (b : ℕ) (hb : 1 ≤ b) :
    (if ispow4 (2 ^ b) then 4 else 2) * (pattern (2 ^ b)).length ^ 2 = 2 ^ b := by
  obtain ⟨c, hc⟩ : ∃ c, b = 2 * c + 1 ∨ b = 2 * c + 2 := ⟨(b - 1) / 2, by omega⟩
  rcases hc with rfl | rfl
  · rw [ispow4_odd c, pattern_length_odd c]
    simp only [Bool.false_eq_true, if_false]
    rw [show ((2 : ℕ) ^ c) ^ 2 = 2 ^ (c * 2) from by rw [← pow_mul], ← pow_succ']
    congr 1
    omega
  · rw [ispow4_even c, pattern_length_even c]
    simp only [if_true]
    rw [show ((2 : ℕ) ^ c) ^ 2 = 2 ^ (c * 2) from by rw [← pow_mul],
      show (4 : ℕ) = 2 ^ 2 from by norm_num, ← pow_add]
    congr 1
    omega

/-- Closed instance of the C4 theorem at `b = 3`. -/
theorem c4_pattern_length_witness :
    (if ispow4 (2 ^ 3) then 4 else 2) * (pattern (2 ^ 3)).length ^ 2 = 2 ^ 3 :=
  c4_pattern_length 3 (by norm_num)

/-- C5: in the radix-4 combination over a block of `4 q` samples, output `i`
of each quarter is combined from `u0 = Q0[i]`, `u1 = mul(Q2[i], t1[i])`,
`u2 = mul(Q1[i], t2[i])`, `u3 = mul(Q3[i], t3[i])` as
`u0+u2+(u1+u3)`, `u0-u2+rot(u1-u3)`, `u0+u2-(u1+u3)`, `u0-u2-rot(u1-u3)` at
offsets `i`, `i+q`, `i+2q`, `i+3q`: the quarter at offset `q` pairs with
harmonic table `t2` and the quarter at offset `2q` with `t1`. -/
theorem c5_combination (d : ℤ) (q : ℕ) (hq : 0 < q) (f : ℕ → ℂ) (i : ℕ) (hi : i < q) :
    mix d (4 * q) f i
      = mix d q f i + mul (mix d q (fun s => f (q + s)) i) (twiddle d (4 * q) 2 i)
        + (mul (mix d q (fun s => f (2 * q + s)) i) (twiddle d (4 * q) 1 i)
           + mul (mix d q (fun s => f (3 * q + s)) i) (twiddle d (4 * q) 3 i))
    ∧ mix d (4 * q) f (i + q)
      = mix d q f i - mul (mix d q (fun s => f (q + s)) i) (twiddle d (4 * q) 2 i)
        + direction d (mul (mix d q (fun s => f (2 * q + s)) i) (twiddle d (4 * q) 1 i)
           - mul (mix d q (fun s => f (3 * q + s)) i) (twiddle d (4 * q) 3 i))
    ∧ mix d (4 * q) f (i + 2 * q)
      = mix d q f i + mul (mix d q (fun s => f (q + s)) i) (twiddle d (4 * q) 2 i)
        - (mul (mix d q (fun s => f (2 * q + s)) i) (twiddle d (4 * q) 1 i)
           + mul (mix d q (fun s => f (3 * q + s)) i) (twiddle d (4 * q) 3 i))
    ∧ mix d (4 * q) f (i + 3 * q)
      = mix d q f i - mul (mix d q (fun s => f (q + s)) i) (twiddle d (4 * q) 2 i)
        - direction d (mul (mix d q (fun s => f (2 * q + s)) i) (twiddle d (4 * q) 1 i)
           - mul (mix d q (fun s => f (3 * q + s)) i) (twiddle d (4 * q) 3 i)) := by
  refine ⟨?_, ?_, ?_, ?_⟩
  · have h := mix_four_eval d q hq f 0 i (by norm_num) hi
    rw [show 0 * q + i = i from by ring] at h
    simpa using h
  · have h := mix_four_eval d q hq f 1 i (by norm_num) hi
    rw [show 1 * q + i = i + q from by ring] at h
    simpa using h
  · have h := mix_four_eval d q hq f 2 i (by norm_num) hi
    rw [show 2 * q + i = i + 2 * q from by ring] at h
    simpa using h
  · have h := mix_four_eval d q hq f 3 i (by norm_num) hi
    rw [show 3 * q + i = i + 3 * q from by ring] at h
    simpa using h

/-- Closed instance of the C5 theorem at `d = -1`, `q = 1`, `i = 0`. -/
theorem c5_combination_witness :
    mix (-1) (4 * 1) (fun n => (n : ℂ)) 0
      = mix (-1) 1 (fun n => (n : ℂ)) 0
        + mul (mix (-1) 1 (fun s => ((1 + s : ℕ) : ℂ)) 0) (twiddle (-1) (4 * 1) 2 0)
        + (mul (mix (-1) 1 (fun s => ((2 * 1 + s : ℕ) : ℂ)) 0) (twiddle (-1) (4 * 1) 1 0)
           + mul (mix (-1) 1 (fun s => ((3 * 1 + s : ℕ) : ℂ)) 0) (twiddle (-1) (4 * 1) 3 0))
    ∧ mix (-1) (4 * 1) (fun n => (n : ℂ)) (0 + 1)
      = mix (-1) 1 (fun n => (n : ℂ)) 0
        - mul (mix (-1) 1 (fun s => ((1 + s : ℕ) : ℂ)) 0) (twiddle (-1) (4 * 1) 2 0)
        + direction (-1)
            (mul (mix (-1) 1 (fun s => ((2 * 1 + s : ℕ) : ℂ)) 0) (twiddle (-1) (4 * 1) 1 0)
             - mul (mix (-1) 1 (fun s => ((3 * 1 + s : ℕ) : ℂ)) 0) (twiddle (-1) (4 * 1) 3 0))
    ∧ mix (-1) (4 * 1) (fun n => (n : ℂ)) (0 + 2 * 1)
      = mix (-1) 1 (fun n => (n : ℂ)) 0
        + mul (mix (-1) 1 (fun s => ((1 + s : ℕ) : ℂ)) 0) (twiddle (-1) (4 * 1) 2 0)
        - (mul (mix (-1) 1 (fun s => ((2 * 1 + s : ℕ) : ℂ)) 0) (twiddle (-1) (4 * 1) 1 0)
           + mul (mix (-1) 1 (fun s => ((3 * 1 + s : ℕ) : ℂ)) 0) (twiddle (-1) (4 * 1) 3 0))
    ∧ mix (-1) (4 * 1) (fun n => (n : ℂ)) (0 + 3 * 1)
      = mix (-1) 1 (fun n => (n : ℂ)) 0
        - mul (mix (-1) 1 (fun s => ((1 + s : ℕ) : ℂ)) 0) (twiddle (-1) (4 * 1) 2 0)
        - direction (-1)
            (mul (mix (-1) 1 (fun s => ((2 * 1 + s : ℕ) : ℂ)) 0) (twiddle (-1) (4 * 1) 1 0)
             - mul (mix (-1) 1 (fun s => ((3 * 1 + s : ℕ) : ℂ)) 0) (twiddle (-1) (4 * 1) 3 0)) :=
  c5_combination (-1) 1 (by norm_num) (fun n => (n : ℂ)) 0 (by norm_num)

/-- C6: table entry `i` of harmonic `a ∈ {1,2,3}` equals
`(cos(θ·a·i), sin(θ·a·i))` with `θ = d·2π/n` (`d = -1` forward, `+1` inverse),
and entry `0` is exactly `(1, 0)` for every harmonic and both directions. -/
theorem c6_twiddle_values (d : ℤ) (n a i : ℕ) (ha : a = 1 ∨ a = 2 ∨ a = 3) :
    twiddle d n a i
      = ⟨Real.cos ((d : ℝ) * (2 * Real.pi) / (n : ℝ) * ((a : ℝ) * (i : ℝ))),
         Real.sin ((d : ℝ) * (2 * Real.pi) / (n : ℝ) * ((a : ℝ) * (i : ℝ)))⟩
    ∧ twiddle d n a 0 = (⟨1, 0⟩ : ℂ) := by
  constructor
  · rw [twiddle]
    have harg : Real.pi * 2 * (d : ℝ) / (n : ℝ) * (a : ℝ) * (i : ℝ)
        = (d : ℝ) * (2 * Real.pi) / (n : ℝ) * ((a : ℝ) * (i : ℝ)) := by ring
    rw [harg]
  · rw [twiddle]
    have harg : Real.pi * 2 * (d : ℝ) / (n : ℝ) * (a : ℝ) * ((0 : ℕ) : ℝ) = 0 := by
      push_cast
      ring
    rw [harg, Real.cos_zero, Real.sin_zero]

/-- Closed instance of the C6 theorem at `d = -1`, `n = 8`, `a = 2`, `i = 1`. -/
theorem c6_twiddle_values_witness :
    twiddle (-1) 8 2 1
      = ⟨Real.cos (((-1 : ℤ) : ℝ) * (2 * Real.pi) / ((8 : ℕ) : ℝ) * (((2 : ℕ) : ℝ) * ((1 : ℕ) : ℝ))),
         Real.sin (((-1 : ℤ) : ℝ) * (2 * Real.pi) / ((8 : ℕ) : ℝ) * (((2 : ℕ) : ℝ) * ((1 : ℕ) : ℝ)))⟩
    ∧ twiddle (-1) 8 2 0 = (⟨1, 0⟩ : ℂ) :=
  c6_twiddle_values (-1) 8 2 1 (by norm_num)

/-- C7: for every power-of-two length, the out-of-place transforms write into
the output buffer exactly what the in-place transforms compute on the input
sequence, and the two reindex routines realize the same permutation. -/
theorem c7_inplace_outofplace (b : ℕ) (hb : 1 ≤ b) (st : Buffers) (k : ℕ) (hk : k < 2 ^ b) :
    (dftOOP (2 ^ b) st).out k = dft (2 ^ b) st.inp k
    ∧ (idftOOP (2 ^ b) st).out k = idft (2 ^ b) st.inp k
    ∧ (reindexOOP (2 ^ b) st).out k = reindexIP (2 ^ b) st.inp k := by
  have hagree : ∀ i, i < 2 ^ b → (reindexOOP (2 ^ b) st).out i = reindexIP (2 ^ b) st.inp i := by
    intro i hi
    rw [reindexOOP_pow b hb st i hi, reindexIP_pow b hb st.inp i, sigmaN_lt b i hi]
  refine ⟨?_, ?_, hagree k hk⟩
  · rw [dftOOP_out, dft]
    exact mix_congr (-1) b _ _ hagree k hk
  · rw [idftOOP_out, idft]
    exact mix_congr 1 b _ _ hagree k hk

/-- Closed instance of the C7 theorem at `b = 1`, `k = 0`. -/
theorem c7_inplace_outofplace_witness :
    (dftOOP (2 ^ 1) ⟨fun n => (n : ℂ), fun _ => 0⟩).out 0
      = dft (2 ^ 1) (Buffers.mk (fun n => (n : ℂ)) (fun _ => 0)).inp 0
    ∧ (idftOOP (2 ^ 1) ⟨fun n => (n : ℂ), fun _ => 0⟩).out 0
      = idft (2 ^ 1) (Buffers.mk (fun n => (n : ℂ)) (fun _ => 0)).inp 0
    ∧ (reindexOOP (2 ^ 1) ⟨fun n => (n : ℂ), fun _ => 0⟩).out 0
      = reindexIP (2 ^ 1) (Buffers.mk (fun n => (n : ℂ)) (fun _ => 0)).inp 0 :=
  c7_inplace_outofplace 1 (by norm_num) ⟨fun n => (n : ℂ), fun _ => 0⟩ 0 (by norm_num)

/-- C8: the out-of-place entry points never write the input buffer: after
`dft(in, out)` or `idft(in, out)` the input component is exactly what it was
before the call. -/
theorem c8_input_unchanged (N : ℕ) (st : Buffers) :
    (dftOOP N st).inp = st.inp ∧ (idftOOP N st).inp = st.inp := by
  constructor
  · rw [dftOOP_inp]
    exact reindexOOP_inp N st
  · rw [idftOOP_inp]
    exact reindexOOP_inp N st

/-- C9: the in-place reindex is an involution: applying it twice restores
every buffer position exactly. -/
theorem c9_reindex_involution (b : ℕ) (hb : 1 ≤ b) (x : ℕ → ℂ) (t : ℕ) :
    reindexIP (2 ^ b) (reindexIP (2 ^ b) x) t = x t := by
  rw [reindexIP_pow b hb _ t, reindexIP_pow b hb x _, sigmaN_involutive b t]

/-- Closed instance of the C9 theorem at `b = 1`, `t = 0`. -/
theorem c9_reindex_involution_witness :
    reindexIP (2 ^ 1) (reindexIP (2 ^ 1) (fun n => (n : ℂ))) 0 = ((0 : ℕ) : ℂ) :=
  c9_reindex_involution 1 (by norm_num) (fun n => (n : ℂ)) 0

/-- C10: safety of every index the transform forms: the bit-reversal pattern
has no duplicate entries; every swap performed by the in-place reindex and
every copy performed by the out-of-place reindex addresses offsets below `N`;
positions at or beyond `N` are never written by reindex or by the butterfly
mixer; and for in-range outputs the mixer reads the buffer only below `N`. -/
theorem c10_safety (b : ℕ) (hb : 1 ≤ b) :
    (pattern (2 ^ b)).Nodup
    ∧ (∀ p ∈ (if ispow4 (2 ^ b) then pairs4 (pattern (2 ^ b)) ((pattern (2 ^ b)).length)
          else pairs2 (pattern (2 ^ b)) ((pattern (2 ^ b)).length)),
        p.1 < 2 ^ b ∧ p.2 < 2 ^ b)
    ∧ (∀ p ∈ (if ispow4 (2 ^ b) then asgs4 (pattern (2 ^ b)) ((pattern (2 ^ b)).length)
          else asgs2 (pattern (2 ^ b)) ((pattern (2 ^ b)).length)),
        p.1 < 2 ^ b ∧ p.2 < 2 ^ b)
    ∧ (∀ (x : ℕ → ℂ) (t : ℕ), 2 ^ b ≤ t → reindexIP (2 ^ b) x t = x t)
    ∧ (∀ (d : ℤ) (f : ℕ → ℂ) (k : ℕ), 2 ^ b ≤ k → mix d (2 ^ b) f k = f k)
    ∧ (∀ (d : ℤ) (f g : ℕ → ℂ), (∀ i, i < 2 ^ b → f i = g i) →
        ∀ k, k < 2 ^ b → mix d (2 ^ b) f k = mix d (2 ^ b) g k) := by
  obtain ⟨c, hc⟩ : ∃ c, b = 2 * c + 1 ∨ b = 2 * c + 2 := ⟨(b - 1) / 2, by omega⟩
  refine ⟨pattern_nodup b hb, ?_, ?_,
    fun x t ht => reindexIP_untouched b hb x t ht,
    fun d f k hk => mix_untouched d (2 ^ b) f k hk,
    fun d => mix_congr d b⟩
  · rcases hc with rfl | rfl
    · rw [ispow4_odd c]
      simp only [Bool.false_eq_true, if_false]
      exact pairs2_bound c
    · rw [ispow4_even c]
      simp only [if_true]
      exact pairs4_bound c
  · rcases hc with rfl | rfl
    · rw [ispow4_odd c]
      simp only [Bool.false_eq_true, if_false]
      exact asgs2_bound c
    · rw [ispow4_even c]
      simp only [if_true]
      exact asgs4_bound c

/-- Closed instance of the C10 theorem at `b = 2`. -/
theorem c10_safety_witness :
    (pattern (2 ^ 2)).Nodup
    ∧ (∀ p ∈ (if ispow4 (2 ^ 2) then pairs4 (pattern (2 ^ 2)) ((pattern (2 ^ 2)).length)
          else pairs2 (pattern (2 ^ 2)) ((pattern (2 ^ 2)).length)),
        p.1 < 2 ^ 2 ∧ p.2 < 2 ^ 2)
    ∧ (∀ p ∈ (if ispow4 (2 ^ 2) then asgs4 (pattern (2 ^ 2)) ((pattern (2 ^ 2)).length)
          else asgs2 (pattern (2 ^ 2)) ((pattern (2 ^ 2)).length)),
        p.1 < 2 ^ 2 ∧ p.2 < 2 ^ 2)
    ∧ (∀ (x : ℕ → ℂ) (t : ℕ), 2 ^ 2 ≤ t → reindexIP (2 ^ 2) x t = x t)
    ∧ (∀ (d : ℤ) (f : ℕ → ℂ) (k : ℕ), 2 ^ 2 ≤ k → mix d (2 ^ 2) f k = f k)
    ∧ (∀ (d : ℤ) (f g : ℕ → ℂ), (∀ i, i < 2 ^ 2 → f i = g i) →
        ∀ k, k < 2 ^ 2 → mix d (2 ^ 2) f k = mix d (2 ^ 2) g k) :=
  c10_safety 2 (by norm_num)

end FFT
